import Mathlib

/-! # KeyVault-Proxy: the request/response rewriting engine of `worker.js`

A shallow embedding of `src/worker.js` and proofs about it.

Modelling conventions.

* A JavaScript string is a `List Char`, a sequence of Unicode scalar values.
  Strings with unpaired surrogates are outside the model.
* An exception is `none`; `try { ... } catch` is a `match` on an `Option`.
* The platform (URL parser, `Request` constructor, `fetch`) is the parameter
  `Env` of every function that calls it; theorems quantify over all of it.
* Built-in string and header operations (`trim`, `split`, `startsWith`,
  `encodeURIComponent`, `decodeURIComponent`, `Headers`) are modelled from
  ECMAScript and the Fetch standard.
-/

namespace KeyVaultProxy

/-! ## Strings -/

/-- A JavaScript string, as its sequence of code points. -/
abbrev Str := List Char

/-- The character U+0022, the double quote. -/
def dquote : Char := Char.ofNat 34

/-- The character U+0027, the single quote. -/
def squote : Char := Char.ofNat 39

/-- The method `String.prototype.startsWith`. -/
def startsWith (s p : Str) : Bool := p.isPrefixOf s

/-- The method `String.prototype.includes`. -/
def includes (s p : Str) : Bool := s.tails.any (fun t => p.isPrefixOf t)

/-- Code points that `String.prototype.trim` strips: ECMAScript WhiteSpace and
LineTerminator. -/
def isWhiteSpace (c : Char) : Bool :=
  let n := c.toNat
  n = 0x09 || n = 0x0A || n = 0x0B || n = 0x0C || n = 0x0D || n = 0x20 || n = 0xA0 ||
  n = 0x1680 || (0x2000 ≤ n && n ≤ 0x200A) || n = 0x2028 || n = 0x2029 || n = 0x202F ||
  n = 0x205F || n = 0x3000 || n = 0xFEFF

/-- The method `String.prototype.trim`. -/
def trim (s : Str) : Str :=
  ((s.dropWhile isWhiteSpace).reverse.dropWhile isWhiteSpace).reverse

/-- The method `String.prototype.split` with a one-character separator. -/
def split (sep : Char) : Str → List Str
  | [] => [[]]
  | c :: cs =>
    if c = sep then [] :: split sep cs
    else
      match split sep cs with
      | [] => [[c]]
      | seg :: segs => (c :: seg) :: segs

/-- The method `Array.prototype.join`. -/
def join (sep : Str) (parts : List Str) : Str := sep.intercalate parts

/-- The method `String.prototype.toLowerCase`, on the ASCII letters (header
names and the attribute names of the rewriter are ASCII). -/
def toLowerCase (s : Str) : Str := s.map Char.toLower

/-! ## `encodeURIComponent` and `decodeURIComponent` -/

/-- Characters that `encodeURIComponent` leaves alone: ASCII letters and
digits and `- _ . ! ~ * ' ( )`. -/
def isUnreserved (c : Char) : Bool :=
  c.isAlphanum || c = '-' || c = '_' || c = '.' || c = '!' || c = '~' || c = '*' ||
  c = squote || c = '(' || c = ')'

/-- The upper-case hexadecimal digit of a value below 16. -/
def hexDigit (n : Nat) : Char :=
  if n < 10 then Char.ofNat (48 + n) else Char.ofNat (55 + n)

/-- The value of a hexadecimal digit, in either case. -/
def hexVal (c : Char) : Option Nat :=
  let n := c.toNat
  if 48 ≤ n ∧ n ≤ 57 then some (n - 48)
  else if 65 ≤ n ∧ n ≤ 70 then some (n - 55)
  else if 97 ≤ n ∧ n ≤ 102 then some (n - 87)
  else none

/-- The UTF-8 octets of a code point. -/
def utf8Bytes (n : Nat) : List Nat :=
  if n < 0x80 then [n]
  else if n < 0x800 then [0xC0 + n / 64, 0x80 + n % 64]
  else if n < 0x10000 then [0xE0 + n / 4096, 0x80 + n / 64 % 64, 0x80 + n % 64]
  else [0xF0 + n / 262144, 0x80 + n / 4096 % 64, 0x80 + n / 64 % 64, 0x80 + n % 64]

/-- One escaped octet, `%XX`. -/
def pctByte (b : Nat) : Str := ['%', hexDigit (b / 16), hexDigit (b % 16)]

/-- The encoding of one character. -/
def encodeChar (c : Char) : Str :=
  if isUnreserved c then [c] else ((utf8Bytes c.toNat).map pctByte).flatten

/-- The function `encodeURIComponent`. -/
def encodeURIComponent (s : Str) : Str := (s.map encodeChar).flatten

/-- An element of a string under decoding: a literal character or an escaped
octet. -/
inductive Tok
  | raw (c : Char)
  | byte (b : Nat)
  deriving DecidableEq, Repr

/-- First pass of `decodeURIComponent`: every `%` must be followed by two
hexadecimal digits. -/
def pctTokens : Str → Option (List Tok)
  | [] => some []
  | c :: rest =>
    if c = '%' then
      match rest with
      | h1 :: h2 :: rest2 =>
        match hexVal h1, hexVal h2 with
        | some a, some b => (pctTokens rest2).map (fun ts => Tok.byte (16 * a + b) :: ts)
        | _, _ => none
      | _ => none
    else (pctTokens rest).map (fun ts => Tok.raw c :: ts)

/-- A code point is a Unicode scalar value. -/
def isScalar (n : Nat) : Bool := n < 0xD800 || (0xE000 ≤ n && n < 0x110000)

/-- Second pass of `decodeURIComponent`: the escaped octets must form valid
UTF-8 (no overlong form, no surrogate, nothing above U+10FFFF), each sequence
made of consecutive escapes. `pending` continuation octets are still due for a
code point whose bits so far are `acc` and which must be at least `lo`. -/
def utf8Chars (pending acc lo : Nat) : List Tok → Option Str
  | [] => if pending = 0 then some [] else none
  | Tok.raw c :: ts =>
    if pending = 0 then (utf8Chars 0 0 0 ts).map (fun s => c :: s) else none
  | Tok.byte b :: ts =>
    if pending = 0 then
      if b < 0x80 then (utf8Chars 0 0 0 ts).map (fun s => Char.ofNat b :: s)
      else if b < 0xC0 then none
      else if b < 0xE0 then utf8Chars 1 (b - 0xC0) 0x80 ts
      else if b < 0xF0 then utf8Chars 2 (b - 0xE0) 0x800 ts
      else if b < 0xF8 then utf8Chars 3 (b - 0xF0) 0x10000 ts
      else none
    else if 0x80 ≤ b ∧ b < 0xC0 then
      let v := acc * 64 + (b - 0x80)
      if pending = 1 then
        if lo ≤ v ∧ isScalar v then (utf8Chars 0 0 0 ts).map (fun s => Char.ofNat v :: s)
        else none
      else utf8Chars (pending - 1) v lo ts
    else none

/-- The function `decodeURIComponent`; `none` is a thrown `URIError`. -/
def decodeURIComponent (s : Str) : Option Str :=
  (pctTokens s).bind (utf8Chars 0 0 0)

/-- The tokens that the encoding of one character decodes to. -/
def charToks (c : Char) : List Tok :=
  if isUnreserved c then [Tok.raw c] else (utf8Bytes c.toNat).map Tok.byte

/-! ## Headers (Fetch standard) -/

/-- A `Headers` object: its header list, (name, value) pairs in insertion
order. Names compare ASCII case-insensitively. Names and values are taken to be
valid, so no method throws. -/
structure Headers where
  list : List (Str × Str)
  deriving DecidableEq, Repr

/-- Two header names are the same name. -/
def sameName (a b : Str) : Bool := toLowerCase a == toLowerCase b

/-- The method `Headers.prototype.get`: the values of all headers of that name
joined with a comma and a space, `none` (null) when there is none. -/
def Headers.get (h : Headers) (name : Str) : Option Str :=
  match (h.list.filter (fun p => sameName p.1 name)).map Prod.snd with
  | [] => none
  | v :: vs => some (join ", ".toList (v :: vs))

/-- The value of the first header of a name is replaced and the later headers
of that name are removed. -/
def setFirst (name value : Str) : List (Str × Str) → List (Str × Str)
  | [] => []
  | p :: ps =>
    if sameName p.1 name then (p.1, value) :: ps.filter (fun q => !sameName q.1 name)
    else p :: setFirst name value ps

/-- The method `Headers.prototype.set`. -/
def Headers.set (h : Headers) (name value : Str) : Headers :=
  if h.list.any (fun p => sameName p.1 name) then ⟨setFirst name value h.list⟩
  else ⟨h.list ++ [(name, value)]⟩

/-- The names that iteration visits: lower-cased, without duplicates, sorted. -/
def Headers.names (h : Headers) : List Str :=
  ((h.list.map (fun p => toLowerCase p.1)).dedup).insertionSort (fun a b => a ≤ b)

/-- The values of the headers of a name, in order. -/
def Headers.values (h : Headers) (name : Str) : List Str :=
  (h.list.filter (fun p => sameName p.1 name)).map Prod.snd

/-- The combined value of a list of header values: joined with a comma and a
space, `none` for no value. -/
def combineValues (values : List Str) : Option Str :=
  match values with
  | [] => none
  | v :: vs => some (join ", ".toList (v :: vs))

/-- The entries that iteration yields for one lower-cased name: `set-cookie`
once for each of its values, every other name once with its combined value. -/
def Headers.entriesOf (h : Headers) (n : Str) : List (Str × Str) :=
  if n = "set-cookie".toList then (h.values n).map (fun v => (n, v))
  else [(n, (h.get n).getD [])]

/-- The method `Headers.prototype.entries` (sort and combine): the entries of
the names, lower-cased and in sorted order. -/
def Headers.entries (h : Headers) : List (Str × Str) :=
  (h.names.map h.entriesOf).flatten

/-- The constructor `new Headers(init)` on a `Headers` object, which appends
each entry of the iteration of `init` to the new list. -/
def Headers.copy (h : Headers) : Headers := ⟨h.entries⟩

/-! ## Requests, responses and the platform -/

/-- The parsed URL of the inbound request, `new URL(request.url)`. -/
structure URL where
  protocol : Str
  host : Str
  pathname : Str
  search : Str
  deriving DecidableEq, Repr

/-- The inbound request. -/
structure Request where
  url : URL
  method : Str
  headers : Headers
  body : Option Str
  deriving DecidableEq, Repr

/-- The request handed to `fetch`: `new Request(actualUrlStr, ...)`. -/
structure OutRequest where
  url : Str
  headers : Headers
  method : Str
  body : Option Str
  redirect : Str
  deriving DecidableEq, Repr

/-- A response; `body` is `none` for a null body and `url` is empty for a
response built by the `Response` constructor. -/
structure Response where
  status : Nat
  statusText : Str
  headers : Headers
  body : Option Str
  url : Str
  deriving DecidableEq, Repr

/-- The platform a request is handled on.
* `parseURL input base` is `new URL(input, base).toString()`, `none` when the
  constructor throws;
* `requestURL input` is the URL of `new Request(input, ...)`, `none` when the
  constructor throws;
* `fetch r` is the upstream response, `none` when the promise rejects. -/
structure Env where
  parseURL : Str → Option Str → Option Str
  requestURL : Str → Option Str
  fetch : OutRequest → Option Response

/-- Statuses whose response must have a null body. -/
def nullBodyStatus (status : Nat) : Bool :=
  status = 101 || status = 103 || status = 204 || status = 205 || status = 304

/-- The reason phrases of the HTTP status codes from 200 to 599 (RFC 7231 and
its extensions). -/
def reasonPhrases : List (Nat × Str) :=
  [(200, "OK".toList), (201, "Created".toList), (202, "Accepted".toList),
   (203, "Non-Authoritative Information".toList), (204, "No Content".toList),
   (205, "Reset Content".toList), (206, "Partial Content".toList),
   (300, "Multiple Choices".toList), (301, "Moved Permanently".toList),
   (302, "Found".toList), (303, "See Other".toList), (304, "Not Modified".toList),
   (305, "Use Proxy".toList), (307, "Temporary Redirect".toList),
   (308, "Permanent Redirect".toList), (400, "Bad Request".toList),
   (401, "Unauthorized".toList), (402, "Payment Required".toList),
   (403, "Forbidden".toList), (404, "Not Found".toList),
   (405, "Method Not Allowed".toList), (406, "Not Acceptable".toList),
   (407, "Proxy Authentication Required".toList), (408, "Request Timeout".toList),
   (409, "Conflict".toList), (410, "Gone".toList), (411, "Length Required".toList),
   (412, "Precondition Failed".toList), (413, "Payload Too Large".toList),
   (414, "URI Too Long".toList), (415, "Unsupported Media Type".toList),
   (416, "Range Not Satisfiable".toList), (417, "Expectation Failed".toList),
   (426, "Upgrade Required".toList), (428, "Precondition Required".toList),
   (429, "Too Many Requests".toList), (431, "Request Header Fields Too Large".toList),
   (451, "Unavailable For Legal Reasons".toList), (500, "Internal Server Error".toList),
   (501, "Not Implemented".toList), (502, "Bad Gateway".toList),
   (503, "Service Unavailable".toList), (504, "Gateway Timeout".toList),
   (505, "HTTP Version Not Supported".toList)]

/-- The status text that the Workers runtime gives a response built without
`statusText`: the reason phrase of the status, empty when it has none. -/
def reasonPhrase (status : Nat) : Str := (reasonPhrases.lookup status).getD []

/-- The constructor `new Response(body, init)` of the Workers runtime, for which
the script is written (`addEventListener('fetch', ...)`). It throws for a status
outside 200..599 and for a body that is not empty given with a null-body
status; an empty body given with a null-body status is taken as no body; an
omitted `statusText` (`none`) becomes the reason phrase of the status. -/
def newResponse (body : Option Str) (status : Nat) (statusText : Option Str)
    (headers : Headers) : Option Response :=
  if status < 200 ∨ 599 < status then none
  else if nullBodyStatus status then
    match body with
    | none => some ⟨status, statusText.getD (reasonPhrase status), headers, none, []⟩
    | some text =>
      if text = [] then some ⟨status, statusText.getD (reasonPhrase status), headers, none, []⟩
      else none
  else some ⟨status, statusText.getD (reasonPhrase status), headers, body, []⟩

/-- What one run of the handler produced: the response, the string handed to
the `Request` constructor if that point was reached, and the request handed to
`fetch` if that point was reached. -/
structure Outcome where
  response : Response
  target : Option Str
  fetched : Option OutRequest
  deriving DecidableEq, Repr

/-! ## The functions of `worker.js` -/

/-- The function `ensureProtocol` (worker.js, lines 90-95). -/
def ensureProtocol (url defaultProtocol : Str) : Str :=
  let url := trim url
  if startsWith url "http://".toList || startsWith url "https://".toList then url
  else if startsWith url "//".toList then defaultProtocol ++ url
  else defaultProtocol ++ "//".toList ++ url

/-- The function `filterHeaders` (lines 136-146): a new `Headers` filled by
`set` from the entries that pass the three tests. -/
def filterHeaders (headers : Headers) : Headers :=
  headers.entries.foldl
    (fun newHeaders p =>
      if !startsWith p.1 "cf-".toList && !startsWith p.1 "x-forwarded-".toList &&
          toLowerCase p.1 != "host".toList
      then newHeaders.set p.1 p.2 else newHeaders)
    ⟨[]⟩

/-- The function `setNoCacheHeaders` (lines 148-152). -/
def setNoCacheHeaders (headers : Headers) : Headers :=
  ((headers.set "Cache-Control".toList "no-cache, no-store, must-revalidate".toList).set
    "Pragma".toList "no-cache".toList).set "Expires".toList "0".toList

/-- The function `setCorsHeaders` (lines 154-158). -/
def setCorsHeaders (headers : Headers) : Headers :=
  ((headers.set "Access-Control-Allow-Origin".toList "*".toList).set
    "Access-Control-Allow-Methods".toList "GET, POST, PUT, DELETE, OPTIONS".toList).set
    "Access-Control-Allow-Headers".toList "*".toList

/-- The function `handleRedirect` (lines 97-115). An absent or empty
`Location` is falsy and the response is returned as it is; so it is when the
`try` block throws. The new response is built without `statusText`. -/
def handleRedirect (env : Env) (response : Response) (key : Str) : Response :=
  match response.headers.get "location".toList with
  | none => response
  | some location =>
    if location = [] then response
    else
      match env.parseURL location (some response.url) with
      | none => response
      | some absoluteUrl =>
        let newLocation := "/".toList ++ key ++ "/".toList ++ encodeURIComponent absoluteUrl
        let headers := (response.headers.copy).set "Location".toList newLocation
        match newResponse response.body response.status none headers with
        | none => response
        | some r => r

/-- A character that opens or closes an attribute value in the pattern. -/
def isQuote (c : Char) : Bool := c = dquote || c = squote

/-- One match of the pattern `(href|src|action)=["']([^"']+)["']` with the
flags `gi`: the attribute name as written, the two quote characters and the
value, which is not empty and holds no quote. -/
structure AttrMatch where
  attr : Str
  openQ : Char
  url : Str
  closeQ : Char
  deriving DecidableEq, Repr

/-- The matched text. -/
def AttrMatch.text (m : AttrMatch) : Str :=
  m.attr ++ ['='] ++ [m.openQ] ++ m.url ++ [m.closeQ]

/-- The alternation `(href|src|action)` under the flag `i`, at the start of a
string: the name as written and the rest. -/
def matchAttrName (s : Str) : Option (Str × Str) :=
  ["href".toList, "src".toList, "action".toList].findSome? (fun name =>
    if toLowerCase (s.take name.length) = name then
      some (s.take name.length, s.drop name.length)
    else none)

/-- The pattern matched at the start of a string. -/
def matchAt (s : Str) : Option AttrMatch :=
  match matchAttrName s with
  | none => none
  | some (attr, rest) =>
    match rest with
    | e :: q :: rest2 =>
      if e = '=' ∧ isQuote q then
        let url := rest2.takeWhile (fun c => !isQuote c)
        match url, rest2.dropWhile (fun c => !isQuote c) with
        | _ :: _, q2 :: _ => some ⟨attr, q, url, q2⟩
        | _, _ => none
      else none
    | _ => none

/-- The method `String.prototype.replace` with the global pattern and a
callback: matches are searched left to right, each search starting where the
previous match ended; `skip` is the number of characters of the current match
still to pass. -/
def replaceAll (f : AttrMatch → Str) : Nat → Str → Str
  | _, [] => []
  | k + 1, _ :: cs => replaceAll f k cs
  | 0, c :: cs =>
    match matchAt (c :: cs) with
    | some m => f m ++ replaceAll f (m.text.length - 1) cs
    | none => c :: replaceAll f 0 cs

/-- The callback of `replaceRelativePaths` (lines 122-133). -/
def rewriteAttr (env : Env) (baseUrl proxyPrefix : Str) (m : AttrMatch) : Str :=
  if m.url = [] || startsWith m.url "#".toList || includes m.url "://".toList ||
      startsWith m.url "javascript:".toList then m.text
  else
    match env.parseURL m.url (some baseUrl) with
    | some absoluteUrl =>
      m.attr ++ ['=', dquote] ++ proxyPrefix ++ encodeURIComponent absoluteUrl ++ [dquote]
    | none => m.text

/-- The function `replaceRelativePaths` (lines 117-134); `none` when
`new URL(actualUrl)` throws. -/
def replaceRelativePaths (env : Env) (text protocol host actualUrl key : Str) : Option Str :=
  match env.parseURL actualUrl none with
  | none => none
  | some baseUrl =>
    let proxyPrefix := protocol ++ "//".toList ++ host ++ "/".toList ++ key ++ "/".toList
    some (replaceAll (rewriteAttr env baseUrl proxyPrefix) 0 text)

/-- The response of the root path (lines 15-19). -/
def placeholder : Response :=
  ⟨200, reasonPhrase 200, ⟨[("Content-Type".toList, "text/plain; charset=utf-8".toList)]⟩,
    some "Under maintenance...".toList, []⟩

/-- The response to a path with fewer than two segments (lines 25-30). -/
def invalidRequest : Response :=
  ⟨400, reasonPhrase 400, ⟨[("Content-Type".toList, "text/plain".toList)]⟩,
    some "Invalid request format".toList, []⟩

/-- The response to a wrong key (lines 34-39). -/
def accessDenied : Response :=
  ⟨403, reasonPhrase 403, ⟨[("Content-Type".toList, "text/plain".toList)]⟩,
    some "Access denied".toList, []⟩

/-- The response of the `catch` block (lines 82-87). -/
def serviceUnavailable : Response :=
  ⟨503, reasonPhrase 503, ⟨[("Content-Type".toList, "text/plain".toList)]⟩,
    some "Service unavailable".toList, []⟩

/-- The path segments: `url.pathname.split('/').filter(segment => segment)`. -/
def pathSegments (pathname : Str) : List Str :=
  (split '/' pathname).filter (fun segment => segment != [])

/-- The redirect statuses of line 58. -/
def redirectStatuses : List Nat := [301, 302, 303, 307, 308]

/-- Lines 62-81 of `handleRequest`: the body, rewritten when the content type
contains `text/html`, then the new response with the no-cache and CORS headers
set. `none` when a step throws. -/
def assemble (env : Env) (url : URL) (actualUrlStr providedKey : Str) (response : Response) :
    Option Response :=
  let contentType := (response.headers.get "content-type".toList).getD []
  let body : Option (Option Str) :=
    if includes contentType "text/html".toList then
      (replaceRelativePaths env (response.body.getD []) url.protocol url.host actualUrlStr
        providedKey).map some
    else some response.body
  match body with
  | none => none
  | some body =>
    match newResponse body response.status (some response.statusText) response.headers.copy with
    | none => none
    | some modifiedResponse =>
      some { modifiedResponse with
        headers := setCorsHeaders (setNoCacheHeaders modifiedResponse.headers) }

/-- The function `handleRequest` (lines 10-88), with the record of what it
handed to the `Request` constructor and to `fetch`. -/
def handleRequestRun (env : Env) (SECRET_KEY : Str) (request : Request) : Outcome :=
  let url := request.url
  if url.pathname = "/".toList then ⟨placeholder, none, none⟩
  else
    let segments := pathSegments url.pathname
    if segments.length < 2 then ⟨invalidRequest, none, none⟩
    else
      let providedKey := segments.headD []
      if providedKey ≠ SECRET_KEY then ⟨accessDenied, none, none⟩
      else
        let encodedTarget := join "/".toList (segments.drop 1)
        match decodeURIComponent encodedTarget with
        | none => ⟨serviceUnavailable, none, none⟩
        | some decoded =>
          let actualUrlStr := ensureProtocol decoded url.protocol ++ url.search
          match env.requestURL actualUrlStr with
          | none => ⟨serviceUnavailable, some actualUrlStr, none⟩
          | some href =>
            let modifiedRequest : OutRequest :=
              ⟨href, filterHeaders request.headers, request.method, request.body,
                "manual".toList⟩
            match env.fetch modifiedRequest with
            | none => ⟨serviceUnavailable, some actualUrlStr, some modifiedRequest⟩
            | some response =>
              if response.status ∈ redirectStatuses then
                ⟨handleRedirect env response providedKey, some actualUrlStr,
                  some modifiedRequest⟩
              else
                match assemble env url actualUrlStr providedKey response with
                | none => ⟨serviceUnavailable, some actualUrlStr, some modifiedRequest⟩
                | some modifiedResponse =>
                  ⟨modifiedResponse, some actualUrlStr, some modifiedRequest⟩

/-- The response of `handleRequest`. -/
def handleRequest (env : Env) (SECRET_KEY : Str) (request : Request) : Response :=
  (handleRequestRun env SECRET_KEY request).response

/-! ## Concrete platforms and requests for the scenarios -/

/-- A platform on which every URL is rejected and every fetch fails. -/
def deadEnv : Env := ⟨fun _ _ => none, fun _ => none, fun _ => none⟩

/-- The values of the URL parser at the inputs of the scenarios below (WHATWG
URL standard): the input, the base and the serialised result. -/
def sampleURLs : List ((Str × Option Str) × Str) :=
  [(("https://example.com/index".toList, none), "https://example.com/index".toList),
   (("/about".toList, some "https://example.com/index".toList),
      "https://example.com/about".toList),
   (("/next".toList, some "https://example.com/page".toList),
      "https://example.com/next".toList),
   (([], some "https://example.com/page".toList), "https://example.com/page".toList),
   (("/o".toList, some "https://example.com/index".toList), "https://example.com/o".toList),
   (("/o".toList ++ [squote] ++ "brien".toList, some "https://example.com/index".toList),
      "https://example.com/o".toList ++ [squote] ++ "brien".toList),
   (("src=".toList, some "https://example.com/index".toList),
      "https://example.com/src=".toList),
   (("x".toList, some "https://example.com/index".toList), "https://example.com/x".toList)]

/-- The URL parser of the scenarios: the table above, every other input being
rejected. -/
def sampleParseURL (input : Str) (base : Option Str) : Option Str :=
  sampleURLs.lookup (input, base)

/-- A platform with the sample URL parser whose upstream answers every request
with the given response. -/
def sampleEnv (upstream : Response) : Env :=
  ⟨sampleParseURL, fun input => some input, fun _ => some upstream⟩

/-- A bodiless GET request for a path on `https://proxy.example`. -/
def getRequest (pathname : Str) : Request :=
  ⟨⟨"https:".toList, "proxy.example".toList, pathname, []⟩, "GET".toList, ⟨[]⟩, none⟩

/-! ## Definitions used by the proofs and further scenarios -/

/-- The header test in the spec's words: the name, compared without regard to
letter case, does not start with `cf-` or `x-forwarded-` and is not `host`. -/
def isForwarded (name : Str) : Bool :=
  !startsWith (toLowerCase name) "cf-".toList &&
    !startsWith (toLowerCase name) "x-forwarded-".toList &&
    toLowerCase name != "host".toList

/-- An upstream page: status 200, a cacheable HTML body with one relative link,
served from `https://example.com/index`. -/
def samplePage : Response :=
  ⟨200, "OK".toList,
    ⟨[("Content-Type".toList, "text/html; charset=utf-8".toList),
      ("Cache-Control".toList, "max-age=3600".toList),
      ("Access-Control-Allow-Origin".toList, "https://example.com".toList)]⟩,
    some ("<a href=".toList ++ [dquote] ++ "/about".toList ++ [dquote] ++ ">".toList),
    "https://example.com/index".toList⟩

/-- An upstream redirect: status 302 with the given `Location`, served from
`https://example.com/page`. -/
def sampleRedirect (location : Str) : Response :=
  ⟨302, "Found".toList,
    ⟨[("Location".toList, location), ("Cache-Control".toList, "max-age=3600".toList)]⟩,
    none, "https://example.com/page".toList⟩

/-- A platform with the sample URL parser on which every fetch fails. -/
def unreachableEnv : Env := ⟨sampleParseURL, fun input => some input, fun _ => none⟩

/-- An upstream redirect whose status line carries another reason phrase than
the registered one: `302 Moved Temporarily` with the `Location` `/next`,
served from `https://example.com/page`. -/
def legacyRedirect : Response :=
  ⟨302, "Moved Temporarily".toList,
    ⟨[("Location".toList, "/next".toList), ("Cache-Control".toList, "max-age=3600".toList)]⟩,
    none, "https://example.com/page".toList⟩

/-- An upstream answer with a status outside 200..599: status 999 with a plain
text body, served from `https://example.com/index`. -/
def unassignedStatus : Response :=
  ⟨999, "Request denied".toList, ⟨[("Content-Type".toList, "text/plain".toList)]⟩,
    some "denied".toList, "https://example.com/index".toList⟩

/-- An inbound header collection with two `Set-Cookie` headers and one `Accept`
header. -/
def twoCookies : Headers :=
  ⟨[("Set-Cookie".toList, "a=1".toList), ("Accept".toList, "text/html".toList),
    ("Set-Cookie".toList, "b=2".toList)]⟩

/-- A bodiless GET request for a path on `https://proxy.example` with the given
headers. -/
def getRequestWith (pathname : Str) (headers : Headers) : Request :=
  ⟨⟨"https:".toList, "proxy.example".toList, pathname, []⟩, "GET".toList, headers, none⟩

/-- The six header names that the response assembler sets. -/
def fixedHeaderNames : List Str :=
  ["Cache-Control".toList, "Pragma".toList, "Expires".toList,
    "Access-Control-Allow-Origin".toList, "Access-Control-Allow-Methods".toList,
    "Access-Control-Allow-Headers".toList]

/-- A piece of a scanned text: a character outside every match, or a match. -/
inductive Piece
  | lit (c : Char)
  | hit (m : AttrMatch)
  deriving DecidableEq, Repr

/-- The text a piece stands for in the input. -/
def Piece.source : Piece → Str
  | Piece.lit c => [c]
  | Piece.hit m => m.text

/-- The text a piece becomes when the callback `f` replaces the matches. -/
def Piece.render (f : AttrMatch → Str) : Piece → Str
  | Piece.lit c => [c]
  | Piece.hit m => f m

/-- The pieces that the global pattern cuts a text into, scanned as in
`replaceAll`. -/
def scan : Nat → Str → List Piece
  | _, [] => []
  | k + 1, _ :: cs => scan k cs
  | 0, c :: cs =>
    match matchAt (c :: cs) with
    | some m => Piece.hit m :: scan (m.text.length - 1) cs
    | none => Piece.lit c :: scan 0 cs

/-- The input text of a list of pieces. -/
def sourceOf (pieces : List Piece) : Str := (pieces.map Piece.source).flatten

/-- The output text of a list of pieces under a callback. -/
def renderOf (f : AttrMatch → Str) (pieces : List Piece) : Str :=
  (pieces.map (Piece.render f)).flatten

/-- A match has the shape of the pattern: a name that is `href`, `src` or
`action` up to letter case, quote characters around the value, and a value
that is not empty and holds no quote character. -/
def AttrMatch.WF (m : AttrMatch) : Prop :=
  (toLowerCase m.attr = "href".toList ∨ toLowerCase m.attr = "src".toList ∨
    toLowerCase m.attr = "action".toList) ∧
  isQuote m.openQ = true ∧ isQuote m.closeQ = true ∧ m.url ≠ [] ∧
  ∀ c ∈ m.url, isQuote c = false

/-- The origin of a serialised URL with an authority, in the spec's words its
scheme and host: the text before the third `/`. -/
def origin (href : Str) : Str := join "/".toList ((split '/' href).take 3)

/-- The values of the URL parser (WHATWG URL standard) for a page that refers to
another host with a scheme-relative reference. -/
def crossOriginURLs : List ((Str × Option Str) × Str) :=
  [(("https://example.com/index".toList, none), "https://example.com/index".toList),
   (("//other.example/lib.js".toList, some "https://example.com/index".toList),
      "https://other.example/lib.js".toList)]

/-- A platform with the parser values above. -/
def crossOriginEnv : Env :=
  ⟨fun input base => crossOriginURLs.lookup (input, base), fun input => some input,
    fun _ => none⟩

/-- The three attribute names of the pattern. -/
def attrNames : List Str := ["href".toList, "src".toList, "action".toList]

/-- The callback output of a match starts with the attribute name as written,
`=` and a quote character. -/
def Shaped (f : AttrMatch → Str) (m : AttrMatch) : Prop :=
  ∃ q w, isQuote q = true ∧ f m = m.attr ++ '=' :: q :: w

/-- Every match of a list of pieces has the shape of the pattern and a shaped
callback output. -/
def Good (f : AttrMatch → Str) (pieces : List Piece) : Prop :=
  ∀ m, Piece.hit m ∈ pieces → m.WF ∧ Shaped f m

/-! # Theorems -/

/-! ## Path and key checks -/

theorem pathSegments_root : pathSegments "/".toList = [] := by decide

theorem pathname_ne_root (pathname : Str) (h : 1 ≤ (pathSegments pathname).length) :
    pathname ≠ "/".toList := by
  intro hp
  rw [hp, pathSegments_root] at h
  simp at h

theorem headD_of_head? {segments : List Str} {key : Str}
    (h : segments.head? ≠ some key) (hlen : 1 ≤ segments.length) :
    segments.headD [] ≠ key := by
  cases segments with
  | nil => simp at hlen
  | cons a l =>
    simp only [List.head?_cons, ne_eq, Option.some.injEq] at h
    simpa using h

theorem run_wrong_key (env : Env) (key : Str) (request : Request)
    (hlen : 2 ≤ (pathSegments request.url.pathname).length)
    (hkey : (pathSegments request.url.pathname).head? ≠ some key) :
    handleRequestRun env key request = ⟨accessDenied, none, none⟩ := by
  have hp := pathname_ne_root request.url.pathname (by omega)
  have hk := headD_of_head? hkey (by omega)
  have hl : ¬ (pathSegments request.url.pathname).length < 2 := by omega
  unfold handleRequestRun
  dsimp only
  rw [if_neg hp, if_neg hl, if_pos hk]

theorem run_few_segments (env : Env) (key : Str) (request : Request)
    (hroot : request.url.pathname ≠ "/".toList)
    (hlen : (pathSegments request.url.pathname).length < 2) :
    handleRequestRun env key request = ⟨invalidRequest, none, none⟩ := by
  unfold handleRequestRun
  dsimp only
  rw [if_neg hroot, if_pos hlen]

/-- C1, as amended: a request with at least two non-empty path segments whose
first segment is not the configured key is answered with the fixed 403
response, on every platform (whatever the upstream would do). -/
theorem wrong_key_is_403 (env : Env) (key : Str) (request : Request)
    (hlen : 2 ≤ (pathSegments request.url.pathname).length)
    (hkey : (pathSegments request.url.pathname).head? ≠ some key) :
    handleRequest env key request = accessDenied ∧
      (handleRequest env key request).status = 403 := by
  have h := run_wrong_key env key request hlen hkey
  simp [handleRequest, h, accessDenied]

theorem wrong_key_is_403_witness :
    2 ≤ (pathSegments (getRequest "/wrong/example.com".toList).url.pathname).length ∧
    (handleRequest (sampleEnv placeholder) "default_key".toList
      (getRequest "/wrong/example.com".toList)).status = 403 :=
  ⟨by decide,
   (wrong_key_is_403 (sampleEnv placeholder) "default_key".toList
      (getRequest "/wrong/example.com".toList) (by decide) (by decide)).2⟩

/-- C1 fails as stated: the path `/wrong` has the first segment `wrong`, which
is not the key `default_key`, and the answer is 400, not 403. -/
theorem wrong_key_one_segment_is_400 :
    (pathSegments (getRequest "/wrong".toList).url.pathname).head? = some "wrong".toList ∧
    "wrong".toList ≠ "default_key".toList ∧
    (handleRequest deadEnv "default_key".toList (getRequest "/wrong".toList)).status = 400 ∧
    (handleRequest deadEnv "default_key".toList (getRequest "/wrong".toList)).status ≠ 403 := by
  decide

/-- C2, as amended: a request whose path is not `/` and has fewer than two
non-empty segments is answered with the fixed 400 response. -/
theorem few_segments_is_400 (env : Env) (key : Str) (request : Request)
    (hroot : request.url.pathname ≠ "/".toList)
    (hlen : (pathSegments request.url.pathname).length < 2) :
    handleRequest env key request = invalidRequest ∧
      (handleRequest env key request).status = 400 := by
  have h := run_few_segments env key request hroot hlen
  simp [handleRequest, h, invalidRequest]

theorem few_segments_is_400_witness :
    (pathSegments (getRequest "/default_key".toList).url.pathname).length < 2 ∧
    (handleRequest deadEnv "default_key".toList
      (getRequest "/default_key".toList)).status = 400 :=
  ⟨by decide,
   (few_segments_is_400 deadEnv "default_key".toList (getRequest "/default_key".toList)
      (by decide) (by decide)).2⟩

/-- C2 fails as stated: the path `/` has no non-empty segment, fewer than two,
and the answer is the placeholder with status 200, not 400. -/
theorem root_path_is_200 :
    (pathSegments (getRequest "/".toList).url.pathname).length < 2 ∧
    (handleRequest deadEnv "default_key".toList (getRequest "/".toList)).status = 200 ∧
    (handleRequest deadEnv "default_key".toList (getRequest "/".toList)).status ≠ 400 := by
  decide

/-- C3: for a request with at least two non-empty path segments, a request is
handed to `fetch` only if the first segment is identical to the configured key,
and if the first segment differs from the key in any way the response is the
fixed 403 response and nothing is fetched, so the responses on any two
platforms (any two upstream behaviours) are equal. -/
theorem key_gates_forwarder (env env2 : Env) (key : Str) (request : Request)
    (hlen : 2 ≤ (pathSegments request.url.pathname).length) :
    ((handleRequestRun env key request).fetched ≠ none →
      (pathSegments request.url.pathname).head? = some key) ∧
    ((pathSegments request.url.pathname).head? ≠ some key →
      handleRequest env key request = accessDenied ∧
      (handleRequestRun env key request).fetched = none ∧
      handleRequest env key request = handleRequest env2 key request) := by
  constructor
  · intro hf
    by_contra hkey
    exact hf (by rw [run_wrong_key env key request hlen hkey])
  · intro hkey
    have h1 := run_wrong_key env key request hlen hkey
    have h2 := run_wrong_key env2 key request hlen hkey
    simp only [handleRequest, h1, h2, and_self]

theorem key_gates_forwarder_witness :
    2 ≤ (pathSegments (getRequest "/secret/example.com".toList).url.pathname).length ∧
    toLowerCase "Secret".toList = "secret".toList ∧
    handleRequest (sampleEnv placeholder) "Secret".toList
      (getRequest "/secret/example.com".toList) = accessDenied ∧
    handleRequest (sampleEnv placeholder) "Secret".toList
      (getRequest "/secret/example.com".toList) =
      handleRequest deadEnv "Secret".toList (getRequest "/secret/example.com".toList) :=
  have h := (key_gates_forwarder (sampleEnv placeholder) deadEnv "Secret".toList
    (getRequest "/secret/example.com".toList) (by decide)).2 (by decide)
  ⟨by decide, by decide, h.1, h.2.2⟩

/-! ## Protocol defaulting -/

theorem dropWhile_head_not {p : Char → Bool} (s : Str)
    (h : ∀ c, s.head? = some c → p c = false) : s.dropWhile p = s := by
  cases s with
  | nil => rfl
  | cons a l => simp [List.dropWhile_cons, h a rfl]

theorem trim_eq_self (s : Str)
    (hfirst : ∀ c, s.head? = some c → isWhiteSpace c = false)
    (hlast : ∀ c, s.getLast? = some c → isWhiteSpace c = false) : trim s = s := by
  unfold trim
  rw [dropWhile_head_not s hfirst, dropWhile_head_not s.reverse, List.reverse_reverse]
  intro c hc
  rw [List.head?_reverse] at hc
  exact hlast c hc

/-- C5, as amended: with `t` the target string trimmed of leading and trailing
white space, `ensureProtocol` returns `t` when `t` starts with `http://` or
`https://`, the default protocol followed by `t` when `t` starts with `//`, and
the default protocol, `//` and `t` in every other case; `t` is the target
string itself when that neither begins nor ends with white space. -/
theorem ensureProtocol_cases (s p : Str) :
    ((startsWith (trim s) "http://".toList = true ∨
        startsWith (trim s) "https://".toList = true) → ensureProtocol s p = trim s) ∧
    (startsWith (trim s) "http://".toList = false →
      startsWith (trim s) "https://".toList = false →
      startsWith (trim s) "//".toList = true → ensureProtocol s p = p ++ trim s) ∧
    (startsWith (trim s) "http://".toList = false →
      startsWith (trim s) "https://".toList = false →
      startsWith (trim s) "//".toList = false →
      ensureProtocol s p = p ++ "//".toList ++ trim s) ∧
    ((∀ c, s.head? = some c → isWhiteSpace c = false) →
      (∀ c, s.getLast? = some c → isWhiteSpace c = false) → trim s = s) := by
  refine ⟨?_, ?_, ?_, trim_eq_self s⟩
  · intro h
    unfold ensureProtocol
    dsimp only
    rw [if_pos]
    rcases h with h | h <;> rw [h] <;> simp
  · intro h1 h2 h3
    unfold ensureProtocol
    dsimp only
    rw [h1, h2, h3]
    rfl
  · intro h1 h2 h3
    unfold ensureProtocol
    dsimp only
    rw [h1, h2, h3]
    rfl

theorem ensureProtocol_cases_witness :
    ensureProtocol " //cdn.example/x ".toList "https:".toList =
      "https:".toList ++ trim " //cdn.example/x ".toList ∧
    ensureProtocol "example.com".toList "https:".toList =
      "https:".toList ++ "//".toList ++ trim "example.com".toList ∧
    trim "example.com".toList = "example.com".toList :=
  have h1 := ensureProtocol_cases " //cdn.example/x ".toList "https:".toList
  have h2 := ensureProtocol_cases "example.com".toList "https:".toList
  ⟨h1.2.1 (by decide) (by decide) (by decide),
   h2.2.2.1 (by decide) (by decide) (by decide),
   h2.2.2.2 (by decide) (by decide)⟩

/-- C5 fails as stated: `http://a ` (with a trailing space) starts with
`http://`, and the result is `http://a`, not the string itself; ` //x` starts
with neither prefix, and the result is `https://x`, not `https:// //x`. -/
theorem ensureProtocol_trims :
    startsWith "http://a ".toList "http://".toList = true ∧
    ensureProtocol "http://a ".toList "https:".toList = "http://a".toList ∧
    ensureProtocol "http://a ".toList "https:".toList ≠ "http://a ".toList ∧
    startsWith " //x".toList "http://".toList = false ∧
    startsWith " //x".toList "https://".toList = false ∧
    startsWith " //x".toList "//".toList = false ∧
    ensureProtocol " //x".toList "https:".toList = "https://x".toList ∧
    ensureProtocol " //x".toList "https:".toList ≠
      "https:".toList ++ "//".toList ++ " //x".toList := by
  decide

/-! ## Round trip of the percent-encoding -/

theorem hexVal_hexDigit : ∀ d, d < 16 → hexVal (hexDigit d) = some d := by decide

theorem hexDigit_ne_percent : ∀ d, d < 16 → hexDigit d ≠ '%' ∧ hexDigit d ≠ '/' := by decide

theorem pctTokens_pctByte (b : Nat) (hb : b < 256) (rest : Str) :
    pctTokens (pctByte b ++ rest) = (pctTokens rest).map (fun ts => Tok.byte b :: ts) := by
  have h1 : b / 16 < 16 := by omega
  have h2 : b % 16 < 16 := by omega
  have e : 16 * (b / 16) + b % 16 = b := by omega
  simp only [pctByte, List.cons_append, List.nil_append, pctTokens, if_true,
    hexVal_hexDigit _ h1, hexVal_hexDigit _ h2, e]
  rfl

theorem pctTokens_bytes (bs : List Nat) (hbs : ∀ b ∈ bs, b < 256) (rest : Str) :
    pctTokens ((bs.map pctByte).flatten ++ rest) =
      (pctTokens rest).map (fun ts => bs.map Tok.byte ++ ts) := by
  induction bs with
  | nil => simp
  | cons b bs ih =>
    have hb := hbs b (List.mem_cons_self _ _)
    have ih2 := ih (fun x hx => hbs x (List.mem_cons_of_mem _ hx))
    simp only [List.map_cons, List.flatten_cons, List.append_assoc]
    rw [pctTokens_pctByte b hb, ih2]
    cases pctTokens rest <;> simp

theorem char_isScalar (c : Char) : isScalar c.toNat = true := by
  have h := c.valid
  simp only [UInt32.isValidChar, Nat.isValidChar] at h
  simp only [isScalar, Char.toNat, Bool.or_eq_true, Bool.and_eq_true, decide_eq_true_eq]
  omega

theorem char_lt (c : Char) : c.toNat < 0x110000 := by
  have h := char_isScalar c
  simp only [isScalar, Bool.or_eq_true, Bool.and_eq_true, decide_eq_true_eq] at h
  omega

theorem utf8Bytes_lt (n : Nat) (hn : n < 0x110000) : ∀ b ∈ utf8Bytes n, b < 256 := by
  intro b hb
  unfold utf8Bytes at hb
  split_ifs at hb <;> simp at hb <;> omega

theorem pctTokens_encodeChar (c : Char) (rest : Str) :
    pctTokens (encodeChar c ++ rest) = (pctTokens rest).map (fun ts => charToks c ++ ts) := by
  unfold encodeChar charToks
  by_cases hu : isUnreserved c = true
  · have hc : c ≠ '%' := by
      intro h
      rw [h] at hu
      exact absurd hu (by decide)
    simp only [hu, if_true, List.cons_append, List.nil_append]
    conv_lhs => rw [pctTokens.eq_def]
    simp only [if_neg hc]
  · simp only [hu, if_false, Bool.false_eq_true]
    exact pctTokens_bytes _ (utf8Bytes_lt _ (char_lt c)) rest

theorem pctTokens_encode (s : Str) :
    pctTokens (encodeURIComponent s) = some ((s.map charToks).flatten) := by
  induction s with
  | nil => rfl
  | cons c s ih =>
    have h := pctTokens_encodeChar c (encodeURIComponent s)
    simp only [encodeURIComponent, List.map_cons, List.flatten_cons] at h ih ⊢
    rw [h, ih]
    rfl

theorem utf8Chars_charToks (c : Char) (ts : List Tok) :
    utf8Chars 0 0 0 (charToks c ++ ts) = (utf8Chars 0 0 0 ts).map (fun s => c :: s) := by
  have hs := char_isScalar c
  have hc := Char.ofNat_toNat c
  unfold charToks
  by_cases hu : isUnreserved c = true
  · simp only [hu, if_true, List.cons_append, List.nil_append, utf8Chars]
  · simp only [hu, if_false, Bool.false_eq_true]
    generalize c.toNat = n at hs hc
    simp only [isScalar, Bool.or_eq_true, Bool.and_eq_true, decide_eq_true_eq] at hs
    unfold utf8Bytes
    split_ifs with h1 h2 h3
    · simp only [List.map_cons, List.map_nil, List.cons_append, List.nil_append, utf8Chars,
        if_true, if_pos h1, hc]
      rfl
    · have a1 : ¬ (0xC0 + n / 64 < 0x80) := by omega
      have a2 : ¬ (0xC0 + n / 64 < 0xC0) := by omega
      have a3 : 0xC0 + n / 64 < 0xE0 := by omega
      have b1 : 0x80 ≤ 0x80 + n % 64 ∧ 0x80 + n % 64 < 0xC0 := by omega
      have e : (0xC0 + n / 64 - 0xC0) * 64 + (0x80 + n % 64 - 0x80) = n := by omega
      have v : 0x80 ≤ n ∧ isScalar n = true := by
        simp only [isScalar, Bool.or_eq_true, Bool.and_eq_true, decide_eq_true_eq]; omega
      simp only [List.map_cons, List.map_nil, List.cons_append, List.nil_append, utf8Chars,
        if_true, if_neg a1, if_neg a2, if_pos a3, if_pos b1, e, if_pos v, hc,
        one_ne_zero, if_false]
      rfl
    · have a1 : ¬ (0xE0 + n / 4096 < 0x80) := by omega
      have a2 : ¬ (0xE0 + n / 4096 < 0xC0) := by omega
      have a3 : ¬ (0xE0 + n / 4096 < 0xE0) := by omega
      have a4 : 0xE0 + n / 4096 < 0xF0 := by omega
      have b1 : 0x80 ≤ 0x80 + n / 64 % 64 ∧ 0x80 + n / 64 % 64 < 0xC0 := by omega
      have b2 : 0x80 ≤ 0x80 + n % 64 ∧ 0x80 + n % 64 < 0xC0 := by omega
      have e : ((0xE0 + n / 4096 - 0xE0) * 64 + (0x80 + n / 64 % 64 - 0x80)) * 64 +
          (0x80 + n % 64 - 0x80) = n := by omega
      have v : 0x800 ≤ n ∧ isScalar n = true := by
        simp only [isScalar, Bool.or_eq_true, Bool.and_eq_true, decide_eq_true_eq]; omega
      simp only [List.map_cons, List.map_nil, List.cons_append, List.nil_append, utf8Chars,
        if_true, if_neg a1, if_neg a2, if_neg a3, if_pos a4, if_pos b1, if_pos b2, e, if_pos v,
        hc, one_ne_zero, if_false, OfNat.ofNat_ne_zero, OfNat.ofNat_ne_one, Nat.add_one_sub_one,
        Nat.reduceSub, Nat.reduceEqDiff]
      rfl
    · have a1 : ¬ (0xF0 + n / 262144 < 0x80) := by omega
      have a2 : ¬ (0xF0 + n / 262144 < 0xC0) := by omega
      have a3 : ¬ (0xF0 + n / 262144 < 0xE0) := by omega
      have a4 : ¬ (0xF0 + n / 262144 < 0xF0) := by omega
      have a5 : 0xF0 + n / 262144 < 0xF8 := by omega
      have b1 : 0x80 ≤ 0x80 + n / 4096 % 64 ∧ 0x80 + n / 4096 % 64 < 0xC0 := by omega
      have b2 : 0x80 ≤ 0x80 + n / 64 % 64 ∧ 0x80 + n / 64 % 64 < 0xC0 := by omega
      have b3 : 0x80 ≤ 0x80 + n % 64 ∧ 0x80 + n % 64 < 0xC0 := by omega
      have e : (((0xF0 + n / 262144 - 0xF0) * 64 + (0x80 + n / 4096 % 64 - 0x80)) * 64 +
          (0x80 + n / 64 % 64 - 0x80)) * 64 + (0x80 + n % 64 - 0x80) = n := by omega
      have v : 0x10000 ≤ n ∧ isScalar n = true := by
        simp only [isScalar, Bool.or_eq_true, Bool.and_eq_true, decide_eq_true_eq]; omega
      simp only [List.map_cons, List.map_nil, List.cons_append, List.nil_append, utf8Chars,
        if_true, if_neg a1, if_neg a2, if_neg a3, if_neg a4, if_pos a5, if_pos b1, if_pos b2,
        if_pos b3, e, if_pos v, hc, one_ne_zero, if_false, OfNat.ofNat_ne_zero,
        OfNat.ofNat_ne_one, Nat.add_one_sub_one, Nat.reduceSub, Nat.reduceEqDiff]
      rfl

theorem utf8Chars_encode (s : Str) : utf8Chars 0 0 0 ((s.map charToks).flatten) = some s := by
  induction s with
  | nil => rfl
  | cons c s ih =>
    simp only [List.map_cons, List.flatten_cons]
    rw [utf8Chars_charToks, ih]
    rfl

theorem decode_encode (s : Str) : decodeURIComponent (encodeURIComponent s) = some s := by
  unfold decodeURIComponent
  rw [pctTokens_encode]
  exact utf8Chars_encode s

/-! ## The target encoded in the path -/

theorem split_no_sep (sep : Char) (s : Str) (h : sep ∉ s) : split sep s = [s] := by
  induction s with
  | nil => rfl
  | cons c cs ih =>
    have hc : c ≠ sep := fun e => h (by simp [e])
    have hcs : sep ∉ cs := fun e => h (List.mem_cons_of_mem _ e)
    simp only [split, if_neg hc, ih hcs]

theorem split_append_sep (sep : Char) (a b : Str) (h : sep ∉ a) :
    split sep (a ++ sep :: b) = a :: split sep b := by
  induction a with
  | nil => simp [split]
  | cons c cs ih =>
    have hc : c ≠ sep := fun e => h (by simp [e])
    have hcs : sep ∉ cs := fun e => h (List.mem_cons_of_mem _ e)
    simp only [List.cons_append, split, if_neg hc, List.append_eq, ih hcs]

theorem pathSegments_key_target (key enc : Str) (hkey : key ≠ []) (hslash : '/' ∉ key)
    (henc : enc ≠ []) (hencslash : '/' ∉ enc) :
    pathSegments ("/".toList ++ key ++ "/".toList ++ enc) = [key, enc] := by
  have e : "/".toList ++ key ++ "/".toList ++ enc = '/' :: (key ++ '/' :: enc) := by
    simp
  rw [e]
  unfold pathSegments
  simp only [split, if_true]
  rw [split_append_sep _ _ _ hslash, split_no_sep _ _ hencslash]
  simp [hkey, henc]

theorem encodeChar_no_slash (c x : Char) (hx : x ∈ encodeChar c) : x ≠ '/' := by
  unfold encodeChar at hx
  by_cases hu : isUnreserved c = true
  · simp only [hu, if_true, List.mem_singleton] at hx
    intro h
    rw [hx] at h
    rw [h] at hu
    exact absurd hu (by decide)
  · simp only [hu, if_false, Bool.false_eq_true, List.mem_flatten, List.mem_map] at hx
    obtain ⟨l, ⟨b, hb, rfl⟩, hxl⟩ := hx
    have hb256 := utf8Bytes_lt _ (char_lt c) b hb
    simp only [pctByte, List.mem_cons, List.mem_singleton, List.not_mem_nil, or_false] at hxl
    rcases hxl with h | h | h
    · rw [h]; decide
    · rw [h]; exact (hexDigit_ne_percent _ (by omega)).2
    · rw [h]; exact (hexDigit_ne_percent _ (by omega)).2

theorem encode_no_slash (s : Str) : '/' ∉ encodeURIComponent s := by
  intro h
  simp only [encodeURIComponent, List.mem_flatten, List.mem_map] at h
  obtain ⟨l, ⟨c, _, rfl⟩, hx⟩ := h
  exact encodeChar_no_slash c '/' hx rfl

theorem encodeChar_ne_nil (c : Char) : encodeChar c ≠ [] := by
  unfold encodeChar utf8Bytes
  split_ifs <;> simp [pctByte]

theorem encode_ne_nil (s : Str) (h : s ≠ []) : encodeURIComponent s ≠ [] := by
  cases s with
  | nil => exact absurd rfl h
  | cons c cs =>
    have hc := encodeChar_ne_nil c
    simp only [encodeURIComponent, List.map_cons, List.flatten_cons, ne_eq, List.append_eq_nil,
      not_and]
    intro h1
    exact absurd h1 hc

theorem run_target (env : Env) (key : Str) (request : Request) (rest : List Str) (decoded : Str)
    (hseg : pathSegments request.url.pathname = key :: rest) (hrest : rest ≠ [])
    (hdec : decodeURIComponent (join "/".toList rest) = some decoded) :
    (handleRequestRun env key request).target =
      some (ensureProtocol decoded request.url.protocol ++ request.url.search) := by
  have hlen : 2 ≤ (pathSegments request.url.pathname).length := by
    rw [hseg]
    cases rest with
    | nil => exact absurd rfl hrest
    | cons a l => simp
  have hp := pathname_ne_root request.url.pathname (by omega)
  have hl : ¬ (pathSegments request.url.pathname).length < 2 := by omega
  unfold handleRequestRun
  dsimp only
  rw [if_neg hp, if_neg hl, hseg]
  simp only [List.headD_cons, ne_eq, not_true_eq_false, if_false, List.drop_succ_cons,
    List.drop_zero, hdec]
  split
  · rfl
  · split
    · rfl
    · split
      · rfl
      · split <;> rfl

theorem startsWith_head (s p : Str) (c : Char) (h : startsWith s (c :: p) = true) :
    s.head? = some c := by
  cases s with
  | nil => simp [startsWith, List.isPrefixOf] at h
  | cons a l =>
    simp only [startsWith, List.isPrefixOf, Bool.and_eq_true, beq_iff_eq] at h
    simp [h.1]

theorem ensureProtocol_absolute (s p : Str)
    (h : startsWith (trim s) "http://".toList = true ∨
      startsWith (trim s) "https://".toList = true) : ensureProtocol s p = trim s := by
  unfold ensureProtocol
  dsimp only
  rw [if_pos]
  rcases h with h | h <;> rw [h] <;> simp

/-- C4, as amended: for a non-empty key without `/` and a non-empty target
string `T`, when the inbound path is `/` + key + `/` + encodeURIComponent(T) and
the query string is empty, the target the resolver computes is
`ensureProtocol(T, scheme)`, which is `T` trimmed of surrounding white space
after protocol defaulting; it is `T` itself when `T` starts with `http://` or
`https://` and does not end with white space. -/
theorem target_round_trip (env : Env) (key T : Str) (request : Request)
    (hkey : key ≠ []) (hslash : '/' ∉ key) (hT : T ≠ [])
    (hpath : request.url.pathname = "/".toList ++ key ++ "/".toList ++ encodeURIComponent T)
    (hsearch : request.url.search = []) :
    (handleRequestRun env key request).target =
      some (ensureProtocol T request.url.protocol) ∧
    ((startsWith T "http://".toList = true ∨ startsWith T "https://".toList = true) →
      (∀ c, T.getLast? = some c → isWhiteSpace c = false) →
      (handleRequestRun env key request).target = some T) := by
  have hseg : pathSegments request.url.pathname = key :: [encodeURIComponent T] := by
    rw [hpath]
    exact pathSegments_key_target key _ hkey hslash (encode_ne_nil T hT) (encode_no_slash T)
  have hdec : decodeURIComponent (join "/".toList [encodeURIComponent T]) = some T := by
    have : join "/".toList [encodeURIComponent T] = encodeURIComponent T := by
      simp [join, List.intercalate]
    rw [this]
    exact decode_encode T
  have h := run_target env key request _ T hseg (by simp) hdec
  rw [hsearch, List.append_nil] at h
  refine ⟨h, ?_⟩
  intro hstart hlast
  have hhead : T.head? = some 'h' := by
    rcases hstart with hs | hs
    · exact startsWith_head T _ 'h' hs
    · exact startsWith_head T _ 'h' hs
  have htrim : trim T = T := by
    apply trim_eq_self T _ hlast
    intro c hc
    rw [hhead] at hc
    cases hc
    decide
  rw [h, ensureProtocol_absolute T _ (by rw [htrim]; exact hstart), htrim]

theorem target_round_trip_witness :
    (handleRequestRun deadEnv "abc123".toList
      (getRequest ("/".toList ++ "abc123".toList ++ "/".toList ++
        encodeURIComponent "https://example.com/a b?q=1".toList))).target =
      some "https://example.com/a b?q=1".toList :=
  (target_round_trip deadEnv "abc123".toList "https://example.com/a b?q=1".toList
    (getRequest ("/".toList ++ "abc123".toList ++ "/".toList ++
      encodeURIComponent "https://example.com/a b?q=1".toList))
    (by decide) (by decide) (by decide) rfl rfl).2 (Or.inr (by decide)) (by decide)

/-- C4 fails as stated: the target `http://a ` (with a trailing space) starts
with `http://`, its encoding is `http%3A%2F%2Fa%20`, and the resolver computes
`http://a`, not the target itself; for the empty target the path is
`/abc123/` and no target is computed at all (the answer is 400). -/
theorem target_round_trip_trims :
    encodeURIComponent "http://a ".toList = "http%3A%2F%2Fa%20".toList ∧
    startsWith "http://a ".toList "http://".toList = true ∧
    (handleRequestRun deadEnv "abc123".toList
      (getRequest "/abc123/http%3A%2F%2Fa%20".toList)).target = some "http://a".toList ∧
    (handleRequestRun deadEnv "abc123".toList
      (getRequest "/abc123/http%3A%2F%2Fa%20".toList)).target ≠ some "http://a ".toList ∧
    (handleRequestRun deadEnv "abc123".toList
      (getRequest ("/abc123/".toList ++ encodeURIComponent []))).target = none ∧
    (handleRequestRun deadEnv "abc123".toList
      (getRequest ("/abc123/".toList ++ encodeURIComponent []))).response.status = 400 := by
  decide

/-! ## Headers -/

theorem ofNat_lower_toNat : ∀ n, n < 91 → 65 ≤ n → (Char.ofNat (n + 32)).toNat = n + 32 := by
  decide

theorem toLower_toLower (c : Char) : c.toLower.toLower = c.toLower := by
  by_cases h : c.toNat ≥ 65 ∧ c.toNat ≤ 90
  · have e : c.toLower = Char.ofNat (c.toNat + 32) := by
      unfold Char.toLower
      simp only [h, and_self, if_true]
    have hn := ofNat_lower_toNat c.toNat (by omega) h.1
    rw [e]
    unfold Char.toLower
    rw [if_neg]
    rw [hn]
    omega
  · have e : c.toLower = c := by
      unfold Char.toLower
      simp only [h, if_false]
    rw [e, e]

theorem toLowerCase_idem (s : Str) : toLowerCase (toLowerCase s) = toLowerCase s := by
  unfold toLowerCase
  rw [List.map_map]
  apply List.map_congr_left
  intro c _
  exact toLower_toLower c

theorem sameName_lower (a name : Str) : sameName a (toLowerCase name) = sameName a name := by
  unfold sameName
  rw [toLowerCase_idem]

theorem sameName_of_lower {a b : Str} (ha : toLowerCase a = a) (hb : toLowerCase b = b) :
    sameName a b = decide (a = b) := by
  unfold sameName
  rw [ha, hb]
  by_cases h : a = b <;> simp [h]

theorem get_lower (h : Headers) (name : Str) : h.get (toLowerCase name) = h.get name := by
  unfold Headers.get
  simp only [sameName_lower]

theorem names_nodup (h : Headers) : h.names.Nodup := by
  unfold Headers.names
  exact (List.perm_insertionSort _ _).nodup_iff.mpr (List.nodup_dedup _)

theorem mem_names (h : Headers) (n : Str) :
    n ∈ h.names ↔ ∃ p ∈ h.list, toLowerCase p.1 = n := by
  unfold Headers.names
  rw [(List.perm_insertionSort _ _).mem_iff, List.mem_dedup, List.mem_map]

theorem names_lower (h : Headers) (n : Str) (hn : n ∈ h.names) : toLowerCase n = n := by
  obtain ⟨p, _, rfl⟩ := (mem_names h n).mp hn
  exact toLowerCase_idem _

theorem get_none_iff (h : Headers) (name : Str) :
    h.get name = none ↔ ∀ p ∈ h.list, sameName p.1 name = false := by
  unfold Headers.get
  constructor
  · intro hg p hp
    by_contra hs
    have hm : p ∈ h.list.filter (fun p => sameName p.1 name) := by
      simp only [List.mem_filter]
      exact ⟨hp, by simpa using hs⟩
    cases hf : h.list.filter (fun p => sameName p.1 name) with
    | nil => rw [hf] at hm; simp at hm
    | cons a l => rw [hf] at hg; simp at hg
  · intro hall
    have hf : h.list.filter (fun p => sameName p.1 name) = [] := by
      rw [List.filter_eq_nil_iff]
      intro p hp
      simp [hall p hp]
    rw [hf]
    rfl

theorem filter_eq_of_nodup (l : List Str) (a : Str) (hl : l.Nodup) :
    l.filter (fun n => decide (n = a)) = if a ∈ l then [a] else [] := by
  induction l with
  | nil => simp
  | cons b l ih =>
    rw [List.nodup_cons] at hl
    have ih2 := ih hl.2
    by_cases hb : b = a
    · subst hb
      simp [List.filter_cons, ih2, hl.1]
    · have hab : a ≠ b := fun e => hb e.symm
      simp [List.filter_cons, hb, ih2, hab]

theorem entriesOf_fst (h : Headers) (n : Str) (p : Str × Str) (hp : p ∈ h.entriesOf n) :
    p.1 = n := by
  unfold Headers.entriesOf at hp
  split_ifs at hp
  · rw [List.mem_map] at hp
    obtain ⟨v, _, rfl⟩ := hp
    rfl
  · rw [List.mem_singleton] at hp
    rw [hp]

theorem filter_entries (g : Str → List (Str × Str)) (hg : ∀ n, ∀ p ∈ g n, p.1 = n)
    (name : Str) (l : List Str) (hl : l.Nodup) (hlow : ∀ n ∈ l, toLowerCase n = n) :
    ((l.map g).flatten).filter (fun p => sameName p.1 name) =
      if toLowerCase name ∈ l then g (toLowerCase name) else [] := by
  induction l with
  | nil => rfl
  | cons b l ih =>
    rw [List.nodup_cons] at hl
    have ih2 := ih hl.2 (fun n hn => hlow n (List.mem_cons_of_mem _ hn))
    have hb : toLowerCase b = b := hlow b (List.mem_cons_self _ _)
    rw [List.map_cons, List.flatten_cons, List.filter_append, ih2]
    by_cases e : b = toLowerCase name
    · have hall : (g b).filter (fun p => sameName p.1 name) = g b := by
        rw [List.filter_eq_self]
        intro p hp
        rw [hg b p hp, ← sameName_lower, sameName_of_lower hb (toLowerCase_idem name)]
        simpa using e
      have hnot : toLowerCase name ∉ l := by
        rw [← e]
        exact hl.1
      rw [hall, if_neg hnot, if_pos (by rw [← e]; exact List.mem_cons_self _ _),
        List.append_nil, e]
    · have hnone : (g b).filter (fun p => sameName p.1 name) = [] := by
        rw [List.filter_eq_nil_iff]
        intro p hp
        rw [hg b p hp, ← sameName_lower, sameName_of_lower hb (toLowerCase_idem name)]
        simpa using e
      rw [hnone, List.nil_append]
      by_cases hin : toLowerCase name ∈ l
      · rw [if_pos hin, if_pos (List.mem_cons_of_mem _ hin)]
      · rw [if_neg hin, if_neg]
        intro hm
        rw [List.mem_cons] at hm
        rcases hm with hm | hm
        · exact e hm.symm
        · exact hin hm

theorem entries_filter (h : Headers) (name : Str) :
    h.entries.filter (fun p => sameName p.1 name) =
      if toLowerCase name ∈ h.names then h.entriesOf (toLowerCase name) else [] :=
  filter_entries h.entriesOf (entriesOf_fst h) name h.names (names_nodup h) (names_lower h)

theorem values_lower (h : Headers) (name : Str) : h.values (toLowerCase name) = h.values name := by
  unfold Headers.values
  simp only [sameName_lower]

theorem get_of_values (h : Headers) (name : Str) :
    h.get name = combineValues (h.values name) := rfl

theorem get_mk_values (l : List (Str × Str)) (name : Str) (vs : List Str)
    (h : (l.filter (fun p => sameName p.1 name)).map Prod.snd = vs) :
    (Headers.mk l).get name = combineValues vs := by
  rw [get_of_values]
  unfold Headers.values
  rw [h]

theorem get_entries (h : Headers) (name : Str) : (Headers.mk h.entries).get name = h.get name := by
  by_cases hin : toLowerCase name ∈ h.names
  · obtain ⟨p, hp, hpn⟩ := (mem_names h _).mp hin
    have hsome : h.get name ≠ none := by
      rw [ne_eq, get_none_iff]
      intro hall
      have := hall p hp
      simp [sameName, hpn] at this
    obtain ⟨v, hv⟩ := Option.ne_none_iff_exists'.mp hsome
    have hf := entries_filter h name
    rw [if_pos hin] at hf
    by_cases hc : toLowerCase name = "set-cookie".toList
    · have hvals : (h.entries.filter (fun p => sameName p.1 name)).map Prod.snd =
          h.values name := by
        rw [hf]
        unfold Headers.entriesOf
        rw [if_pos hc, List.map_map, values_lower]
        exact List.map_id _
      rw [get_mk_values _ name _ hvals, get_of_values]
    · have hvals : (h.entries.filter (fun p => sameName p.1 name)).map Prod.snd = [v] := by
        rw [hf]
        unfold Headers.entriesOf
        rw [if_neg hc, get_lower, hv]
        rfl
      rw [get_mk_values _ name _ hvals, hv]
      simp [combineValues, join, List.intercalate]
  · have hnone : h.get name = none := by
      rw [get_none_iff]
      intro p hp
      by_contra hs
      apply hin
      rw [mem_names]
      refine ⟨p, hp, ?_⟩
      simpa [sameName] using hs
    have hf := entries_filter h name
    rw [if_neg hin] at hf
    have hvals : (h.entries.filter (fun p => sameName p.1 name)).map Prod.snd = [] := by
      rw [hf]
      rfl
    rw [get_mk_values _ name _ hvals, hnone]
    rfl

theorem entries_lower (h : Headers) (p : Str × Str) (hp : p ∈ h.entries) :
    toLowerCase p.1 = p.1 := by
  unfold Headers.entries at hp
  rw [List.mem_flatten] at hp
  obtain ⟨l, hl, hpl⟩ := hp
  rw [List.mem_map] at hl
  obtain ⟨n, hn, rfl⟩ := hl
  rw [entriesOf_fst h n p hpl]
  exact names_lower h n hn

theorem isForwarded_of_lower (name : Str) (h : toLowerCase name = name) :
    (!startsWith name "cf-".toList && !startsWith name "x-forwarded-".toList &&
      toLowerCase name != "host".toList) = isForwarded name := by
  unfold isForwarded
  rw [h]

theorem isForwarded_lower (name : Str) : isForwarded (toLowerCase name) = isForwarded name := by
  unfold isForwarded
  rw [toLowerCase_idem]

theorem sameName_trans_left {n m : Str} (h : sameName n m = true) (a : Str) :
    sameName a m = sameName a n := by
  unfold sameName at *
  have e : toLowerCase n = toLowerCase m := by simpa using h
  rw [e]

theorem setFirst_filter_same (name value other : Str) (hs : sameName name other = true)
    (l : List (Str × Str)) (hany : l.any (fun p => sameName p.1 name) = true) :
    ((setFirst name value l).filter (fun p => sameName p.1 other)).map Prod.snd = [value] := by
  induction l with
  | nil => simp at hany
  | cons p ps ih =>
    unfold setFirst
    by_cases hp : sameName p.1 name = true
    · rw [if_pos hp, List.filter_cons, sameName_trans_left hs, if_pos hp, List.filter_filter]
      have : ps.filter (fun a => sameName a.1 other && !sameName a.1 name) = [] := by
        rw [List.filter_eq_nil_iff]
        intro q _
        rw [sameName_trans_left hs]
        simp
      rw [this]
      rfl
    · have hany2 : ps.any (fun p => sameName p.1 name) = true := by
        simpa [List.any_cons, hp] using hany
      rw [if_neg hp, List.filter_cons, sameName_trans_left hs, if_neg hp]
      exact ih hany2

theorem get_set_same (h : Headers) (name value other : Str) (hs : sameName name other = true) :
    (h.set name value).get other = some value := by
  have key : ((h.set name value).list.filter (fun p => sameName p.1 other)).map Prod.snd =
      [value] := by
    unfold Headers.set
    by_cases hany : h.list.any (fun p => sameName p.1 name) = true
    · rw [if_pos hany]
      exact setFirst_filter_same name value other hs h.list hany
    · rw [if_neg hany]
      have hnil : h.list.filter (fun p => sameName p.1 other) = [] := by
        rw [List.filter_eq_nil_iff]
        intro q hq
        rw [sameName_trans_left hs]
        intro hq2
        exact hany (List.any_eq_true.mpr ⟨q, hq, hq2⟩)
      simp only [List.filter_append, hnil, List.nil_append, List.filter_cons, hs, if_true,
        List.filter_nil, List.map_cons, List.map_nil]
  unfold Headers.get
  rw [key]
  simp [join, List.intercalate]

theorem sameName_false_of {n m a : Str} (h : sameName n m = false) (ha : sameName a n = true) :
    sameName a m = false := by
  unfold sameName at *
  have e : toLowerCase a = toLowerCase n := by simpa using ha
  rw [e]
  exact h

theorem setFirst_filter_other (name value other : Str) (hs : sameName name other = false)
    (l : List (Str × Str)) :
    (setFirst name value l).filter (fun p => sameName p.1 other) =
      l.filter (fun p => sameName p.1 other) := by
  induction l with
  | nil => rfl
  | cons p ps ih =>
    unfold setFirst
    by_cases hp : sameName p.1 name = true
    · have hpo : sameName p.1 other = false := sameName_false_of hs hp
      rw [if_pos hp, List.filter_cons, List.filter_cons, hpo, List.filter_filter]
      simp only [Bool.false_eq_true, if_false]
      apply List.filter_congr
      intro q _
      by_cases hq : sameName q.1 name = true
      · rw [sameName_false_of hs hq]
        rfl
      · simp [hq]
    · rw [if_neg hp, List.filter_cons, List.filter_cons, ih]

theorem get_set_other (h : Headers) (name value other : Str) (hs : sameName name other = false) :
    (h.set name value).get other = h.get other := by
  have key : (h.set name value).list.filter (fun p => sameName p.1 other) =
      h.list.filter (fun p => sameName p.1 other) := by
    unfold Headers.set
    by_cases hany : h.list.any (fun p => sameName p.1 name) = true
    · rw [if_pos hany]
      exact setFirst_filter_other name value other hs h.list
    · rw [if_neg hany]
      simp only [List.filter_append, List.filter_cons, hs, Bool.false_eq_true, if_false,
        List.filter_nil, List.append_nil]
  unfold Headers.get
  rw [key]

theorem assembled_cache_control (h : Headers) (name : Str)
    (hn : toLowerCase name = "cache-control".toList) :
    (setCorsHeaders (setNoCacheHeaders h)).get name =
      some "no-cache, no-store, must-revalidate".toList := by
  have hs : ∀ a : Str, sameName a name = (toLowerCase a == "cache-control".toList) := by
    intro a
    unfold sameName
    rw [hn]
  unfold setCorsHeaders setNoCacheHeaders
  rw [get_set_other _ _ _ _ (by rw [hs]; decide), get_set_other _ _ _ _ (by rw [hs]; decide),
    get_set_other _ _ _ _ (by rw [hs]; decide), get_set_other _ _ _ _ (by rw [hs]; decide),
    get_set_other _ _ _ _ (by rw [hs]; decide), get_set_same _ _ _ _ (by rw [hs]; decide)]

theorem assembled_allow_origin (h : Headers) (name : Str)
    (hn : toLowerCase name = "access-control-allow-origin".toList) :
    (setCorsHeaders (setNoCacheHeaders h)).get name = some "*".toList := by
  have hs : ∀ a : Str,
      sameName a name = (toLowerCase a == "access-control-allow-origin".toList) := by
    intro a
    unfold sameName
    rw [hn]
  unfold setCorsHeaders
  rw [get_set_other _ _ _ _ (by rw [hs]; decide), get_set_other _ _ _ _ (by rw [hs]; decide),
    get_set_same _ _ _ _ (by rw [hs]; decide)]

theorem newResponse_some (body : Option Str) (status : Nat) (statusText : Option Str)
    (headers : Headers) (r : Response)
    (h : newResponse body status statusText headers = some r) :
    r.status = status ∧ r.statusText = statusText.getD (reasonPhrase status) ∧
      r.headers = headers ∧ r.url = [] ∧
      (r.body = body ∨ (r.body = none ∧ body = some [] ∧ nullBodyStatus status = true)) := by
  unfold newResponse at h
  split_ifs at h with h1 h2
  · cases body with
    | none =>
      simp only [Option.some.injEq] at h
      subst h
      exact ⟨rfl, rfl, rfl, rfl, Or.inl rfl⟩
    | some text =>
      dsimp only at h
      split_ifs at h with h3
      simp only [Option.some.injEq] at h
      subst h
      subst h3
      exact ⟨rfl, rfl, rfl, rfl, Or.inr ⟨rfl, rfl, h2⟩⟩
  · simp only [Option.some.injEq] at h
    subst h
    exact ⟨rfl, rfl, rfl, rfl, Or.inl rfl⟩

theorem assemble_some (env : Env) (url : URL) (target key : Str) (up r : Response)
    (h : assemble env url target key up = some r) :
    r.status = up.status ∧ r.statusText = up.statusText ∧
      ∃ base, r.headers = setCorsHeaders (setNoCacheHeaders base) := by
  unfold assemble at h
  dsimp only at h
  split at h
  · exact absurd h (by simp)
  · split at h
    · exact absurd h (by simp)
    · rename_i body hb m hm
      obtain ⟨hs, ht, _⟩ := newResponse_some _ _ _ _ m hm
      simp only [Option.some.injEq] at h
      subst h
      exact ⟨hs, ht, m.headers, rfl⟩

theorem run_fetched (env : Env) (key : Str) (request : Request) (m : OutRequest)
    (hf : (handleRequestRun env key request).fetched = some m) :
    ∃ target, (handleRequestRun env key request).target = some target ∧
      (handleRequestRun env key request).response =
        match env.fetch m with
        | none => serviceUnavailable
        | some up =>
          if up.status ∈ redirectStatuses then handleRedirect env up key
          else (assemble env request.url target key up).getD serviceUnavailable := by
  revert hf
  unfold handleRequestRun
  dsimp only
  split_ifs with h1 h2 h3
  · intro hf; simp at hf
  · intro hf; simp at hf
  · intro hf; simp at hf
  · have hk : (pathSegments request.url.pathname).headD [] = key := by
      by_contra h
      exact h3 h
    rw [hk]
    cases decodeURIComponent (join "/".toList (List.drop 1 (pathSegments request.url.pathname))) with
    | none => intro hf; simp at hf
    | some decoded =>
      dsimp only
      cases env.requestURL (ensureProtocol decoded request.url.protocol ++ request.url.search) with
      | none => intro hf; simp at hf
      | some href =>
        dsimp only
        cases hfe : env.fetch ⟨href, filterHeaders request.headers, request.method, request.body,
            "manual".toList⟩ with
        | none =>
          intro hf
          simp only [Option.some.injEq] at hf
          subst hf
          refine ⟨_, rfl, ?_⟩
          rw [hfe]
        | some up =>
          dsimp only
          split_ifs with hr
          · intro hf
            simp only [Option.some.injEq] at hf
            subst hf
            refine ⟨_, rfl, ?_⟩
            rw [hfe]
            simp only [hr, if_true]
          · cases hasm : assemble env request.url
                (ensureProtocol decoded request.url.protocol ++ request.url.search) key up with
            | none =>
              intro hf
              simp only [Option.some.injEq] at hf
              subst hf
              refine ⟨_, rfl, ?_⟩
              rw [hfe]
              simp only [hr, if_false, hasm, Option.getD_none]
            | some r =>
              intro hf
              simp only [Option.some.injEq] at hf
              subst hf
              refine ⟨_, rfl, ?_⟩
              rw [hfe]
              simp only [hr, if_false, hasm, Option.getD_some]

/-- C7, as amended: on the pass-through path (the upstream answered with a
status outside 301, 302, 303, 307, 308 and the response is not the 503
fallback; HTML or not), whatever headers the upstream supplied, the emitted
response has the upstream status and carries `Cache-Control` with the value
`no-cache, no-store, must-revalidate` and `Access-Control-Allow-Origin` with
the value `*`. -/
theorem passthrough_headers (env : Env) (key : Str) (request : Request) (m : OutRequest)
    (up : Response)
    (hf : (handleRequestRun env key request).fetched = some m)
    (hup : env.fetch m = some up)
    (hnr : up.status ∉ redirectStatuses)
    (hok : handleRequest env key request ≠ serviceUnavailable) :
    (handleRequest env key request).status = up.status ∧
    (handleRequest env key request).headers.get "Cache-Control".toList =
      some "no-cache, no-store, must-revalidate".toList ∧
    (handleRequest env key request).headers.get "Access-Control-Allow-Origin".toList =
      some "*".toList := by
  obtain ⟨target, _, hr⟩ := run_fetched env key request m hf
  rw [hup] at hr
  simp only [hnr, if_false] at hr
  unfold handleRequest at hok ⊢
  cases hasm : assemble env request.url target key up with
  | none =>
    rw [hasm] at hr
    exact absurd hr hok
  | some r =>
    rw [hasm] at hr
    simp only [Option.getD_some] at hr
    obtain ⟨hs, _, base, hh⟩ := assemble_some env request.url target key up r hasm
    rw [hr, hh]
    exact ⟨hs, assembled_cache_control base _ (by decide),
      assembled_allow_origin base _ (by decide)⟩

theorem passthrough_headers_witness :
    (handleRequest (sampleEnv samplePage) "abc123".toList
      (getRequest "/abc123/https%3A%2F%2Fexample.com%2Findex".toList)).status = 200 ∧
    samplePage.headers.get "Cache-Control".toList = some "max-age=3600".toList ∧
    (handleRequest (sampleEnv samplePage) "abc123".toList
      (getRequest "/abc123/https%3A%2F%2Fexample.com%2Findex".toList)).headers.get
        "Cache-Control".toList = some "no-cache, no-store, must-revalidate".toList :=
  have h := passthrough_headers (sampleEnv samplePage) "abc123".toList
    (getRequest "/abc123/https%3A%2F%2Fexample.com%2Findex".toList)
    ⟨"https://example.com/index".toList, ⟨[]⟩, "GET".toList, none, "manual".toList⟩
    samplePage (by decide) rfl (by decide) (by decide)
  ⟨h.1, by decide, h.2.1⟩

/-- C7 fails as stated: the 403 response and the placeholder carry neither
header, and a rewritten redirect keeps the upstream `Cache-Control`. -/
theorem fixed_responses_lack_no_cache :
    (handleRequest deadEnv "default_key".toList (getRequest "/wrong/x".toList)).status = 403 ∧
    (handleRequest deadEnv "default_key".toList (getRequest "/wrong/x".toList)).headers.get
      "Cache-Control".toList = none ∧
    (handleRequest deadEnv "default_key".toList (getRequest "/wrong/x".toList)).headers.get
      "Access-Control-Allow-Origin".toList = none ∧
    (handleRequest deadEnv "default_key".toList (getRequest "/".toList)).headers.get
      "Cache-Control".toList = none ∧
    (handleRequest (sampleEnv (sampleRedirect "/next".toList)) "abc123".toList
      (getRequest "/abc123/https%3A%2F%2Fexample.com%2Fpage".toList)).headers.get
        "Cache-Control".toList = some "max-age=3600".toList := by
  decide

/-! ## Redirects -/

theorem newResponse_redirect (body : Option Str) (status : Nat) (statusText : Option Str)
    (headers : Headers) (hst : status ∈ redirectStatuses) :
    newResponse body status statusText headers =
      some ⟨status, statusText.getD (reasonPhrase status), headers, body, []⟩ := by
  unfold newResponse
  simp only [redirectStatuses, List.mem_cons, List.mem_singleton, List.not_mem_nil,
    or_false] at hst
  rcases hst with h | h | h | h | h <;> subst h <;> simp [nullBodyStatus]

theorem handleRedirect_rewrites (env : Env) (response : Response) (key L A : Str)
    (hL : response.headers.get "location".toList = some L) (hne : L ≠ [])
    (hA : env.parseURL L (some response.url) = some A)
    (hst : response.status ∈ redirectStatuses) :
    handleRedirect env response key =
      ⟨response.status, reasonPhrase response.status,
        (response.headers.copy).set "Location".toList
          ("/".toList ++ key ++ "/".toList ++ encodeURIComponent A),
        response.body, []⟩ := by
  unfold handleRedirect
  rw [hL]
  dsimp only
  rw [if_neg hne, hA]
  dsimp only
  rw [newResponse_redirect _ _ _ _ hst]
  rfl

theorem run_redirect (env : Env) (key : Str) (request : Request) (m : OutRequest)
    (response : Response)
    (hf : (handleRequestRun env key request).fetched = some m)
    (hup : env.fetch m = some response)
    (hst : response.status ∈ redirectStatuses) :
    handleRequest env key request = handleRedirect env response key := by
  obtain ⟨target, _, hr⟩ := run_fetched env key request m hf
  rw [hup] at hr
  simp only [hst, if_true] at hr
  exact hr

/-- C8, as amended: for an upstream response with status 301, 302, 303, 307 or
308 whose `Location` header `L` is not empty and resolves against the
response's own URL to `A`, `handleRedirect` emits a response whose `Location`
header is `/` + key + `/` + encodeURIComponent(A), and `handleRequest` returns
that response when the upstream answers so. -/
theorem redirect_location (env : Env) (response : Response) (key L A : Str)
    (hL : response.headers.get "location".toList = some L) (hne : L ≠ [])
    (hA : env.parseURL L (some response.url) = some A)
    (hst : response.status ∈ redirectStatuses) :
    (handleRedirect env response key).headers.get "Location".toList =
      some ("/".toList ++ key ++ "/".toList ++ encodeURIComponent A) ∧
    (∀ request m, (handleRequestRun env key request).fetched = some m →
      env.fetch m = some response →
      (handleRequest env key request).headers.get "Location".toList =
        some ("/".toList ++ key ++ "/".toList ++ encodeURIComponent A)) := by
  have h1 : (handleRedirect env response key).headers.get "Location".toList =
      some ("/".toList ++ key ++ "/".toList ++ encodeURIComponent A) := by
    rw [handleRedirect_rewrites env response key L A hL hne hA hst]
    exact get_set_same _ _ _ _ (by decide)
  refine ⟨h1, ?_⟩
  intro request m hf hup
  rw [run_redirect env key request m response hf hup hst]
  exact h1

theorem redirect_location_witness :
    sampleParseURL "/next".toList (some "https://example.com/page".toList) =
      some "https://example.com/next".toList ∧
    "/".toList ++ "abc123".toList ++ "/".toList ++
        encodeURIComponent "https://example.com/next".toList =
      "/abc123/https%3A%2F%2Fexample.com%2Fnext".toList ∧
    (handleRedirect (sampleEnv (sampleRedirect "/next".toList))
      (sampleRedirect "/next".toList) "abc123".toList).headers.get "Location".toList =
      some ("/".toList ++ "abc123".toList ++ "/".toList ++
        encodeURIComponent "https://example.com/next".toList) ∧
    (handleRequest (sampleEnv (sampleRedirect "/next".toList)) "abc123".toList
      (getRequest "/abc123/https%3A%2F%2Fexample.com%2Fpage".toList)).headers.get
        "Location".toList =
      some ("/".toList ++ "abc123".toList ++ "/".toList ++
        encodeURIComponent "https://example.com/next".toList) :=
  have h := redirect_location (sampleEnv (sampleRedirect "/next".toList))
    (sampleRedirect "/next".toList) "abc123".toList "/next".toList
    "https://example.com/next".toList (by decide) (by decide) (by decide) (by decide)
  ⟨by decide, by decide, h.1,
   h.2 (getRequest "/abc123/https%3A%2F%2Fexample.com%2Fpage".toList)
     ⟨"https://example.com/page".toList, ⟨[]⟩, "GET".toList, none, "manual".toList⟩
     (by decide) rfl⟩

/-- C8 fails as stated: an empty `Location` resolves against
`https://example.com/page` to that URL, and `handleRedirect` returns the
response as it is, with the empty `Location`. -/
theorem empty_location_not_rewritten :
    (sampleRedirect []).status ∈ redirectStatuses ∧
    (sampleRedirect []).headers.get "location".toList = some [] ∧
    sampleParseURL [] (some (sampleRedirect []).url) = some "https://example.com/page".toList ∧
    handleRedirect (sampleEnv (sampleRedirect [])) (sampleRedirect []) "abc123".toList =
      sampleRedirect [] ∧
    (handleRedirect (sampleEnv (sampleRedirect [])) (sampleRedirect [])
      "abc123".toList).headers.get "Location".toList ≠
      some ("/".toList ++ "abc123".toList ++ "/".toList ++
        encodeURIComponent "https://example.com/page".toList) := by
  decide

/-- C9 fails on the code: the upstream redirect has the status text
`Moved Temporarily`, and the response that `handleRedirect` builds, and that
the handler returns, has the reason phrase of its status, `Found`, as status
text; its status and body are those of the upstream. -/
theorem redirect_replaces_status_text :
    legacyRedirect.statusText = "Moved Temporarily".toList ∧
    (handleRedirect (sampleEnv legacyRedirect) legacyRedirect "abc123".toList).statusText =
      "Found".toList ∧
    (handleRedirect (sampleEnv legacyRedirect) legacyRedirect "abc123".toList).statusText ≠
      legacyRedirect.statusText ∧
    (handleRedirect (sampleEnv legacyRedirect) legacyRedirect "abc123".toList).headers.get
      "Location".toList = some "/abc123/https%3A%2F%2Fexample.com%2Fnext".toList ∧
    (handleRedirect (sampleEnv legacyRedirect) legacyRedirect "abc123".toList).status = 302 ∧
    (handleRedirect (sampleEnv legacyRedirect) legacyRedirect "abc123".toList).body =
      legacyRedirect.body ∧
    handleRequest (sampleEnv legacyRedirect) "abc123".toList
      (getRequest "/abc123/https%3A%2F%2Fexample.com%2Fpage".toList) =
      handleRedirect (sampleEnv legacyRedirect) legacyRedirect "abc123".toList := by
  decide

theorem redirect_frame (env : Env) (response : Response) (key L A : Str)
    (hL : response.headers.get "location".toList = some L) (hne : L ≠ [])
    (hA : env.parseURL L (some response.url) = some A)
    (hst : response.status ∈ redirectStatuses) :
    (handleRedirect env response key).status = response.status ∧
    (handleRedirect env response key).body = response.body ∧
    (handleRedirect env response key).statusText = reasonPhrase response.status ∧
    (∀ name, sameName "Location".toList name = false →
      (handleRedirect env response key).headers.get name = response.headers.get name) := by
  rw [handleRedirect_rewrites env response key L A hL hne hA hst]
  refine ⟨rfl, rfl, rfl, ?_⟩
  intro name hname
  dsimp only
  rw [get_set_other _ _ _ _ hname]
  exact get_entries response.headers name

/-! ## The HTML rewriter -/

theorem takeWhile_value (v rest : Str) (q : Char) (hq : isQuote q = true)
    (hv : ∀ c ∈ v, isQuote c = false) :
    (v ++ q :: rest).takeWhile (fun c => !isQuote c) = v ∧
    (v ++ q :: rest).dropWhile (fun c => !isQuote c) = q :: rest := by
  induction v with
  | nil => simp [List.takeWhile_cons, List.dropWhile_cons, hq]
  | cons c cs ih =>
    have hc : isQuote c = false := hv c (List.mem_cons_self _ _)
    have ih2 := ih (fun x hx => hv x (List.mem_cons_of_mem _ hx))
    simp only [List.cons_append, List.takeWhile_cons, List.dropWhile_cons, hc, Bool.not_false,
      if_true, ih2.1, ih2.2, and_self]

theorem lower_take_ne (a : Char) (l name : Str) (k : Nat) (c : Char) (hk : 0 < k)
    (hname : name.head? = some c) (hne : a.toLower ≠ c) :
    toLowerCase ((a :: l).take k) ≠ name := by
  intro e
  cases k with
  | zero => omega
  | succ k =>
    have h := congrArg List.head? e
    simp only [toLowerCase, List.take_succ_cons, List.map_cons, List.head?_cons, hname,
      Option.some.injEq] at h
    exact hne h

theorem lower_take_self (attr rest name : Str) (h : toLowerCase attr = name) :
    toLowerCase ((attr ++ rest).take name.length) = name ∧
    (attr ++ rest).take name.length = attr ∧ (attr ++ rest).drop name.length = rest := by
  have hlen : name.length = attr.length := by
    rw [← h]
    simp [toLowerCase]
  rw [hlen, List.take_left', List.drop_left']
  · exact ⟨h, rfl, rfl⟩
  · rfl
  · rfl

theorem matchAttrName_of_lower (attr rest : Str)
    (hattr : toLowerCase attr = "href".toList ∨ toLowerCase attr = "src".toList ∨
      toLowerCase attr = "action".toList) :
    matchAttrName (attr ++ rest) = some (attr, rest) := by
  unfold matchAttrName
  rcases hattr with h | h | h
  · obtain ⟨h1, h2, h3⟩ := lower_take_self attr rest _ h
    rw [List.findSome?_cons, if_pos h1, h2, h3]
  · obtain ⟨h1, h2, h3⟩ := lower_take_self attr rest _ h
    cases attr with
    | nil => exact absurd h (by decide)
    | cons a l =>
      have ha : a.toLower = 's' := by
        have := congrArg List.head? h
        simpa [toLowerCase] using this
      have n1 := lower_take_ne a (l ++ rest) "href".toList "href".toList.length 'h'
        (by decide) rfl (by rw [ha]; decide)
      rw [List.findSome?_cons, List.cons_append, if_neg n1]
      dsimp only
      rw [List.findSome?_cons, ← List.cons_append, if_pos h1, h2, h3]
  · obtain ⟨h1, h2, h3⟩ := lower_take_self attr rest _ h
    cases attr with
    | nil => exact absurd h (by decide)
    | cons a l =>
      have ha : a.toLower = 'a' := by
        have := congrArg List.head? h
        simpa [toLowerCase] using this
      have n1 := lower_take_ne a (l ++ rest) "href".toList "href".toList.length 'h'
        (by decide) rfl (by rw [ha]; decide)
      have n2 := lower_take_ne a (l ++ rest) "src".toList "src".toList.length 's'
        (by decide) rfl (by rw [ha]; decide)
      rw [List.findSome?_cons, List.cons_append, if_neg n1]
      dsimp only
      rw [List.findSome?_cons, if_neg n2]
      dsimp only
      rw [List.findSome?_cons, ← List.cons_append, if_pos h1, h2, h3]

theorem matchAt_attr (attr v post : Str) (q1 q2 : Char)
    (hattr : toLowerCase attr = "href".toList ∨ toLowerCase attr = "src".toList ∨
      toLowerCase attr = "action".toList)
    (hq1 : isQuote q1 = true) (hq2 : isQuote q2 = true)
    (hv : v ≠ []) (hvq : ∀ c ∈ v, isQuote c = false) :
    matchAt (attr ++ '=' :: q1 :: (v ++ q2 :: post)) = some ⟨attr, q1, v, q2⟩ := by
  unfold matchAt
  rw [matchAttrName_of_lower attr _ hattr]
  dsimp only
  obtain ⟨ht, hd⟩ := takeWhile_value v post q2 hq2 hvq
  rw [if_pos ⟨rfl, hq1⟩, ht, hd]
  cases v with
  | nil => exact absurd rfl hv
  | cons c cs => rfl

theorem replaceAll_skip (f : AttrMatch → Str) (s post : Str) :
    replaceAll f s.length (s ++ post) = replaceAll f 0 post := by
  induction s with
  | nil => rfl
  | cons c cs ih =>
    simp only [List.length_cons, List.cons_append, replaceAll]
    exact ih

theorem replaceAll_match (f : AttrMatch → Str) (t post : Str) (m : AttrMatch)
    (hm : matchAt (t ++ post) = some m) (ht : m.text = t) (hne : t ≠ []) :
    replaceAll f 0 (t ++ post) = f m ++ replaceAll f 0 post := by
  cases t with
  | nil => exact absurd rfl hne
  | cons c cs =>
    rw [List.cons_append] at hm ⊢
    rw [replaceAll, hm]
    dsimp only
    rw [ht, List.length_cons, Nat.add_sub_cancel, replaceAll_skip]

theorem replaceAll_pre (f : AttrMatch → Str) (pre rest : Str)
    (hpre : ∀ i, i < pre.length → matchAt ((pre ++ rest).drop i) = none) :
    replaceAll f 0 (pre ++ rest) = pre ++ replaceAll f 0 rest := by
  induction pre with
  | nil => rfl
  | cons c cs ih =>
    have h0 := hpre 0 (by simp)
    rw [List.drop_zero, List.cons_append] at h0
    rw [List.cons_append, replaceAll, h0]
    dsimp only
    rw [ih, List.cons_append]
    intro i hi
    have := hpre (i + 1) (by simpa using hi)
    simpa using this

theorem rewriteAttr_rewrites (env : Env) (baseUrl proxyStart A : Str) (m : AttrMatch)
    (hv : m.url ≠ [])
    (hskip : startsWith m.url "#".toList = false ∧ includes m.url "://".toList = false ∧
      startsWith m.url "javascript:".toList = false)
    (hA : env.parseURL m.url (some baseUrl) = some A) :
    rewriteAttr env baseUrl proxyStart m =
      m.attr ++ ['=', dquote] ++ proxyStart ++ encodeURIComponent A ++ [dquote] := by
  unfold rewriteAttr
  have hne : decide (m.url = []) = false := by simpa using hv
  rw [hne, hskip.1, hskip.2.1, hskip.2.2, hA]
  rfl

/-- C10, as amended: in an HTML body, an occurrence of `href`, `src` or
`action` (in any letter case) followed by `=`, a quote character, a non-empty
value that holds no quote character of either kind, and a quote character,
before which no match of the pattern starts, whose value is not skipped and
resolves against the parsed target URL to `A`, is replaced by the attribute
name as written, `=` and, in double quotes, protocol + `//` + host + `/` + key
+ `/` + encodeURIComponent(A); the text before the occurrence is kept and the
text after it is rewritten in the same way. -/
theorem html_link_rewritten (env : Env) (pre attr v post : Str) (q1 q2 : Char)
    (protocol host target key base A : Str)
    (hbase : env.parseURL target none = some base)
    (hattr : toLowerCase attr = "href".toList ∨ toLowerCase attr = "src".toList ∨
      toLowerCase attr = "action".toList)
    (hq1 : isQuote q1 = true) (hq2 : isQuote q2 = true)
    (hv : v ≠ []) (hvq : ∀ c ∈ v, isQuote c = false)
    (hskip : startsWith v "#".toList = false ∧ includes v "://".toList = false ∧
      startsWith v "javascript:".toList = false)
    (hA : env.parseURL v (some base) = some A)
    (hpre : ∀ i, i < pre.length →
      matchAt ((pre ++ ((attr ++ ['='] ++ [q1] ++ v ++ [q2]) ++ post)).drop i) = none) :
    ∃ rest, replaceRelativePaths env post protocol host target key = some rest ∧
      replaceRelativePaths env (pre ++ ((attr ++ ['='] ++ [q1] ++ v ++ [q2]) ++ post))
          protocol host target key =
        some (pre ++ ((attr ++ ['='] ++ [dquote] ++
          (protocol ++ "//".toList ++ host ++ "/".toList ++ key ++ "/".toList ++
            encodeURIComponent A) ++ [dquote]) ++ rest)) := by
  unfold replaceRelativePaths
  rw [hbase]
  dsimp only
  refine ⟨_, rfl, ?_⟩
  have hm : matchAt ((attr ++ ['='] ++ [q1] ++ v ++ [q2]) ++ post) =
      some ⟨attr, q1, v, q2⟩ := by
    have e : (attr ++ ['='] ++ [q1] ++ v ++ [q2]) ++ post =
        attr ++ '=' :: q1 :: (v ++ q2 :: post) := by simp
    rw [e]
    exact matchAt_attr attr v post q1 q2 hattr hq1 hq2 hv hvq
  rw [replaceAll_pre _ _ _ hpre, replaceAll_match _ _ _ _ hm rfl (by simp),
    rewriteAttr_rewrites env base _ A ⟨attr, q1, v, q2⟩ hv hskip hA]
  simp

theorem html_link_rewritten_witness :
    (∃ rest,
      replaceRelativePaths (sampleEnv samplePage) ">".toList "https:".toList
        "proxy.example".toList "https://example.com/index".toList "abc123".toList = some rest ∧
      replaceRelativePaths (sampleEnv samplePage)
        ("<a ".toList ++ (("href".toList ++ ['='] ++ [dquote] ++ "/about".toList ++ [dquote]) ++
          ">".toList))
        "https:".toList "proxy.example".toList "https://example.com/index".toList
        "abc123".toList =
      some ("<a ".toList ++ (("href".toList ++ ['='] ++ [dquote] ++
        ("https:".toList ++ "//".toList ++ "proxy.example".toList ++ "/".toList ++
          "abc123".toList ++ "/".toList ++
          encodeURIComponent "https://example.com/about".toList) ++ [dquote]) ++ rest))) ∧
    (handleRequest (sampleEnv samplePage) "abc123".toList
      (getRequest "/abc123/https%3A%2F%2Fexample.com%2Findex".toList)).body =
      some ("<a href=".toList ++ [dquote] ++
        "https://proxy.example/abc123/https%3A%2F%2Fexample.com%2Fabout".toList ++ [dquote] ++
        ">".toList) :=
  ⟨html_link_rewritten (sampleEnv samplePage) "<a ".toList "href".toList "/about".toList
      ">".toList dquote dquote "https:".toList "proxy.example".toList
      "https://example.com/index".toList "abc123".toList "https://example.com/index".toList
      "https://example.com/about".toList (by decide) (by decide) (by decide) (by decide)
      (by decide) (by decide) (by decide) (by decide) (by decide),
   by decide⟩

/-- C10 fails as stated. In `<a href="/o'brien">` the value in double quotes
is `/o'brien`, which is not skipped and resolves to
`https://example.com/o'brien`; the pattern stops the value at the single quote,
so the attribute becomes the proxied form of `https://example.com/o` and
`brien"` is left behind. In `<a href="src='x'">` the occurrence `src='x'` lies
inside the match `href="src='` and is not rewritten. -/
theorem quoted_value_cut_at_quote :
    sampleParseURL ("/o".toList ++ [squote] ++ "brien".toList)
      (some "https://example.com/index".toList) =
      some ("https://example.com/o".toList ++ [squote] ++ "brien".toList) ∧
    replaceRelativePaths (sampleEnv samplePage)
      ("<a href=".toList ++ [dquote] ++ "/o".toList ++ [squote] ++ "brien".toList ++ [dquote] ++
        ">".toList)
      "https:".toList "proxy.example".toList "https://example.com/index".toList "abc123".toList =
      some ("<a href=".toList ++ [dquote] ++
        "https://proxy.example/abc123/https%3A%2F%2Fexample.com%2Fo".toList ++ [dquote] ++
        "brien".toList ++ [dquote] ++ ">".toList) ∧
    replaceRelativePaths (sampleEnv samplePage)
      ("<a href=".toList ++ [dquote] ++ "/o".toList ++ [squote] ++ "brien".toList ++ [dquote] ++
        ">".toList)
      "https:".toList "proxy.example".toList "https://example.com/index".toList "abc123".toList ≠
      some ("<a href=".toList ++ [dquote] ++ "https://proxy.example/abc123/".toList ++
        encodeURIComponent ("https://example.com/o".toList ++ [squote] ++ "brien".toList) ++
        [dquote] ++ ">".toList) ∧
    sampleParseURL "x".toList (some "https://example.com/index".toList) =
      some "https://example.com/x".toList ∧
    replaceRelativePaths (sampleEnv samplePage)
      ("<a href=".toList ++ [dquote] ++ "src=".toList ++ [squote] ++ "x".toList ++ [squote] ++
        [dquote] ++ ">".toList)
      "https:".toList "proxy.example".toList "https://example.com/index".toList "abc123".toList =
      some ("<a href=".toList ++ [dquote] ++
        "https://proxy.example/abc123/https%3A%2F%2Fexample.com%2Fsrc%3D".toList ++ [dquote] ++
        "x".toList ++ [squote] ++ [dquote] ++ ">".toList) ∧
    includes
      ("<a href=".toList ++ [dquote] ++
        "https://proxy.example/abc123/https%3A%2F%2Fexample.com%2Fsrc%3D".toList ++ [dquote] ++
        "x".toList ++ [squote] ++ [dquote] ++ ">".toList)
      ("src=".toList ++ [dquote] ++ "https://proxy.example/abc123/".toList ++
        encodeURIComponent "https://example.com/x".toList ++ [dquote]) = false := by
  decide

/-! ## The handler as a whole -/

theorem run_root (env : Env) (key : Str) (request : Request)
    (h : request.url.pathname = "/".toList) :
    handleRequestRun env key request = ⟨placeholder, none, none⟩ := by
  unfold handleRequestRun
  dsimp only
  rw [if_pos h]

theorem run_authorized (env : Env) (key : Str) (request : Request) (s1 : Str) (rest : List Str)
    (hseg : pathSegments request.url.pathname = key :: s1 :: rest) :
    handleRequestRun env key request =
      match decodeURIComponent (join "/".toList (s1 :: rest)) with
      | none => ⟨serviceUnavailable, none, none⟩
      | some decoded =>
        match env.requestURL (ensureProtocol decoded request.url.protocol ++ request.url.search) with
        | none =>
          ⟨serviceUnavailable,
            some (ensureProtocol decoded request.url.protocol ++ request.url.search), none⟩
        | some href =>
          match env.fetch ⟨href, filterHeaders request.headers, request.method, request.body,
              "manual".toList⟩ with
          | none =>
            ⟨serviceUnavailable,
              some (ensureProtocol decoded request.url.protocol ++ request.url.search),
              some ⟨href, filterHeaders request.headers, request.method, request.body,
                "manual".toList⟩⟩
          | some response =>
            if response.status ∈ redirectStatuses then
              ⟨handleRedirect env response key,
                some (ensureProtocol decoded request.url.protocol ++ request.url.search),
                some ⟨href, filterHeaders request.headers, request.method, request.body,
                  "manual".toList⟩⟩
            else
              match assemble env request.url
                  (ensureProtocol decoded request.url.protocol ++ request.url.search) key
                  response with
              | none =>
                ⟨serviceUnavailable,
                  some (ensureProtocol decoded request.url.protocol ++ request.url.search),
                  some ⟨href, filterHeaders request.headers, request.method, request.body,
                    "manual".toList⟩⟩
              | some modifiedResponse =>
                ⟨modifiedResponse,
                  some (ensureProtocol decoded request.url.protocol ++ request.url.search),
                  some ⟨href, filterHeaders request.headers, request.method, request.body,
                    "manual".toList⟩⟩ := by
  have hlen : ¬ (pathSegments request.url.pathname).length < 2 := by
    rw [hseg]
    simp
  have hp := pathname_ne_root request.url.pathname (by rw [hseg]; simp)
  unfold handleRequestRun
  dsimp only
  rw [if_neg hp, if_neg hlen, hseg]
  simp only [List.headD_cons, ne_eq, not_true_eq_false, if_false, List.drop_succ_cons,
    List.drop_zero]

theorem run_shape (env : Env) (key : Str) (request : Request) :
    handleRequestRun env key request = ⟨placeholder, none, none⟩ ∨
    handleRequestRun env key request = ⟨invalidRequest, none, none⟩ ∨
    handleRequestRun env key request = ⟨accessDenied, none, none⟩ ∨
    ∃ s1 rest, pathSegments request.url.pathname = key :: s1 :: rest := by
  by_cases hp : request.url.pathname = "/".toList
  · exact Or.inl (run_root env key request hp)
  · by_cases hl : (pathSegments request.url.pathname).length < 2
    · exact Or.inr (Or.inl (run_few_segments env key request hp hl))
    · by_cases hk : (pathSegments request.url.pathname).head? = some key
      · right; right; right
        cases hs : pathSegments request.url.pathname with
        | nil => rw [hs] at hl; simp at hl
        | cons a l =>
          cases l with
          | nil => rw [hs] at hl; simp at hl
          | cons b l2 =>
            rw [hs] at hk
            simp only [List.head?_cons, Option.some.injEq] at hk
            exact ⟨b, l2, by rw [hk]⟩
      · exact Or.inr (Or.inr (Or.inl (run_wrong_key env key request (by omega) hk)))

/-- C17: for the inbound path `/` the handler returns the placeholder (status
200, plain text), whatever the configured key and the platform are, and hands
nothing to the `Request` constructor or to `fetch`. -/
theorem root_is_placeholder (env env2 : Env) (key key2 : Str) (request : Request)
    (h : request.url.pathname = "/".toList) :
    handleRequest env key request = placeholder ∧
    (handleRequest env key request).status = 200 ∧
    (handleRequest env key request).body = some "Under maintenance...".toList ∧
    (handleRequest env key request).headers.get "Content-Type".toList =
      some "text/plain; charset=utf-8".toList ∧
    (handleRequestRun env key request).fetched = none ∧
    (handleRequestRun env key request).target = none ∧
    handleRequest env2 key2 request = handleRequest env key request := by
  have h1 := run_root env key request h
  have h2 := run_root env2 key2 request h
  unfold handleRequest
  rw [h1, h2]
  exact ⟨rfl, rfl, rfl, by decide, rfl, rfl, rfl⟩

theorem root_is_placeholder_witness :
    handleRequest (sampleEnv samplePage) "abc123".toList (getRequest "/".toList) = placeholder ∧
    handleRequest deadEnv "default_key".toList (getRequest "/".toList) =
      handleRequest (sampleEnv samplePage) "abc123".toList (getRequest "/".toList) :=
  have h := root_is_placeholder (sampleEnv samplePage) deadEnv "abc123".toList
    "default_key".toList (getRequest "/".toList) rfl
  ⟨h.1, h.2.2.2.2.2.2⟩

/-- C16: for an authorized request with the path segments key, s1, ..., sn
(n at least 1) whose joined segments s1/.../sn decode, the string handed to the
`Request` constructor is `ensureProtocol` of the decoded string and the inbound
scheme, followed by the query string as it is, and the request handed to
`fetch` has the URL the constructor made of that string. -/
theorem target_reconstruction (env : Env) (key : Str) (request : Request) (s1 : Str)
    (rest : List Str) (decoded : Str)
    (hseg : pathSegments request.url.pathname = key :: s1 :: rest)
    (hdec : decodeURIComponent (join "/".toList (s1 :: rest)) = some decoded) :
    (handleRequestRun env key request).target =
      some (ensureProtocol decoded request.url.protocol ++ request.url.search) ∧
    (∀ m, (handleRequestRun env key request).fetched = some m →
      env.requestURL (ensureProtocol decoded request.url.protocol ++ request.url.search) =
        some m.url) := by
  rw [run_authorized env key request s1 rest hseg, hdec]
  dsimp only
  cases hr : env.requestURL (ensureProtocol decoded request.url.protocol ++ request.url.search) with
  | none => exact ⟨rfl, fun m hm => by simp at hm⟩
  | some href =>
    dsimp only
    cases env.fetch ⟨href, filterHeaders request.headers, request.method, request.body,
        "manual".toList⟩ with
    | none =>
      refine ⟨rfl, fun m hm => ?_⟩
      simp only [Option.some.injEq] at hm
      rw [← hm]
    | some response =>
      dsimp only
      split_ifs
      · refine ⟨rfl, fun m hm => ?_⟩
        simp only [Option.some.injEq] at hm
        rw [← hm]
      · cases assemble env request.url
            (ensureProtocol decoded request.url.protocol ++ request.url.search) key response with
        | none =>
          refine ⟨rfl, fun m hm => ?_⟩
          simp only [Option.some.injEq] at hm
          rw [← hm]
        | some r =>
          refine ⟨rfl, fun m hm => ?_⟩
          simp only [Option.some.injEq] at hm
          rw [← hm]

theorem target_reconstruction_witness :
    (handleRequestRun (sampleEnv samplePage) "abc123".toList
      ⟨⟨"https:".toList, "proxy.example".toList,
          "/abc123/example.com/a%3Fx%3D1".toList, "?y=2".toList⟩,
        "GET".toList, ⟨[]⟩, none⟩).target =
      some (ensureProtocol "example.com/a?x=1".toList "https:".toList ++ "?y=2".toList) ∧
    ensureProtocol "example.com/a?x=1".toList "https:".toList ++ "?y=2".toList =
      "https://example.com/a?x=1?y=2".toList :=
  ⟨(target_reconstruction (sampleEnv samplePage) "abc123".toList
      ⟨⟨"https:".toList, "proxy.example".toList,
          "/abc123/example.com/a%3Fx%3D1".toList, "?y=2".toList⟩,
        "GET".toList, ⟨[]⟩, none⟩
      "example.com".toList ["a%3Fx%3D1".toList] "example.com/a?x=1".toList
      (by decide) (by decide)).1,
   by decide⟩

theorem handleRedirect_fail_open (env : Env) (response : Response) (key : Str)
    (h : response.headers.get "location".toList = none ∨
      ∃ L, response.headers.get "location".toList = some L ∧
        env.parseURL L (some response.url) = none) :
    handleRedirect env response key = response := by
  unfold handleRedirect
  rcases h with h | ⟨L, hL, hp⟩
  · rw [h]
  · rw [hL]
    dsimp only
    split_ifs
    · rfl
    · rw [hp]

/-- C15: a redirect response whose `Location` header is absent, or whose
`Location` does not resolve to a URL against the response's own URL, is
returned by `handleRedirect` as it is (same status, status text, headers, body),
and so it is by `handleRequest` when the upstream answers with it. -/
theorem redirect_fail_open (env : Env) (response : Response) (key : Str)
    (hst : response.status ∈ redirectStatuses)
    (h : response.headers.get "location".toList = none ∨
      ∃ L, response.headers.get "location".toList = some L ∧
        env.parseURL L (some response.url) = none) :
    handleRedirect env response key = response ∧
    (∀ request m, (handleRequestRun env key request).fetched = some m →
      env.fetch m = some response → handleRequest env key request = response) := by
  have h1 := handleRedirect_fail_open env response key h
  refine ⟨h1, ?_⟩
  intro request m hf hup
  rw [run_redirect env key request m response hf hup hst, h1]

theorem redirect_fail_open_witness :
    handleRedirect (sampleEnv samplePage) (sampleRedirect "http://[".toList) "abc123".toList =
      sampleRedirect "http://[".toList ∧
    handleRedirect deadEnv ⟨301, "Moved Permanently".toList, ⟨[]⟩, none,
        "https://example.com/page".toList⟩ "abc123".toList =
      ⟨301, "Moved Permanently".toList, ⟨[]⟩, none, "https://example.com/page".toList⟩ :=
  ⟨(redirect_fail_open (sampleEnv samplePage) (sampleRedirect "http://[".toList)
      "abc123".toList (by decide)
      (Or.inr ⟨"http://[".toList, by decide, by decide⟩)).1,
   (redirect_fail_open deadEnv ⟨301, "Moved Permanently".toList, ⟨[]⟩, none,
      "https://example.com/page".toList⟩ "abc123".toList (by decide) (Or.inl (by decide))).1⟩

theorem handleRedirect_status (env : Env) (response : Response) (key : Str) :
    (handleRedirect env response key).status = response.status := by
  unfold handleRedirect
  split
  · rfl
  · dsimp only
    split_ifs
    · rfl
    · split
      · rfl
      · split
        · rfl
        · rename_i r hr
          exact (newResponse_some _ _ _ _ r hr).1

theorem run_request_rejected (env : Env) (key : Str) (request : Request) (t : Str)
    (ht : (handleRequestRun env key request).target = some t)
    (hr : env.requestURL t = none) :
    handleRequestRun env key request = ⟨serviceUnavailable, some t, none⟩ := by
  rcases run_shape env key request with h | h | h | ⟨s1, rest, hseg⟩
  · rw [h] at ht; simp at ht
  · rw [h] at ht; simp at ht
  · rw [h] at ht; simp at ht
  · cases hd : decodeURIComponent (join "/".toList (s1 :: rest)) with
    | none =>
      rw [run_authorized env key request s1 rest hseg, hd] at ht
      simp at ht
    | some decoded =>
      have e := run_target env key request (s1 :: rest) decoded hseg (by simp) hd
      rw [ht, Option.some.injEq] at e
      rw [run_authorized env key request s1 rest hseg, hd]
      dsimp only
      rw [← e, hr]

theorem run_decode_failed (env : Env) (key : Str) (request : Request) (s1 : Str)
    (rest : List Str) (hseg : pathSegments request.url.pathname = key :: s1 :: rest)
    (hdec : decodeURIComponent (join "/".toList (s1 :: rest)) = none) :
    handleRequestRun env key request = ⟨serviceUnavailable, none, none⟩ := by
  rw [run_authorized env key request s1 rest hseg, hdec]

theorem run_status (env : Env) (key : Str) (request : Request) :
    handleRequest env key request = placeholder ∨
    handleRequest env key request = invalidRequest ∨
    handleRequest env key request = accessDenied ∨
    handleRequest env key request = serviceUnavailable ∨
    ∃ m up, (handleRequestRun env key request).fetched = some m ∧ env.fetch m = some up ∧
      (handleRequest env key request).status = up.status := by
  unfold handleRequest
  rcases run_shape env key request with h | h | h | ⟨s1, rest, hseg⟩
  · rw [h]; exact Or.inl rfl
  · rw [h]; exact Or.inr (Or.inl rfl)
  · rw [h]; exact Or.inr (Or.inr (Or.inl rfl))
  · right; right; right
    rw [run_authorized env key request s1 rest hseg]
    cases decodeURIComponent (join "/".toList (s1 :: rest)) with
    | none => exact Or.inl rfl
    | some decoded =>
      dsimp only
      cases env.requestURL
          (ensureProtocol decoded request.url.protocol ++ request.url.search) with
      | none => exact Or.inl rfl
      | some href =>
        dsimp only
        cases hfe : env.fetch ⟨href, filterHeaders request.headers, request.method,
            request.body, "manual".toList⟩ with
        | none => exact Or.inl rfl
        | some response =>
          dsimp only
          split_ifs with hst
          · right
            exact ⟨_, response, rfl, hfe, handleRedirect_status env response key⟩
          · cases hasm : assemble env request.url
                (ensureProtocol decoded request.url.protocol ++ request.url.search) key
                response with
            | none => exact Or.inl rfl
            | some r =>
              right
              exact ⟨_, response, rfl, hfe,
                (assemble_some env request.url _ key response r hasm).1⟩

/-- C14: the handler is a total function of the request and the platform. Its
response is the placeholder (200), one of the fixed 400, 403 and 503 responses,
or a response with the status of the upstream response. When a step of the
`try` block throws (the target does not decode, the `Request` constructor
rejects the target, `fetch` rejects, the body rewriting or the `Response`
constructor throws) the response is the fixed 503 response with the body
`Service unavailable`, the same for every failure. -/
theorem handler_total (env : Env) (key : Str) (request : Request) :
    (∃ r, handleRequest env key request = r) ∧
    (handleRequest env key request = placeholder ∨
      handleRequest env key request = invalidRequest ∨
      handleRequest env key request = accessDenied ∨
      handleRequest env key request = serviceUnavailable ∨
      ∃ m up, (handleRequestRun env key request).fetched = some m ∧ env.fetch m = some up ∧
        (handleRequest env key request).status = up.status) ∧
    (placeholder.status = 200 ∧ invalidRequest.status = 400 ∧ accessDenied.status = 403 ∧
      serviceUnavailable.status = 503 ∧
      serviceUnavailable.body = some "Service unavailable".toList) ∧
    (∀ s1 rest, pathSegments request.url.pathname = key :: s1 :: rest →
      decodeURIComponent (join "/".toList (s1 :: rest)) = none →
      handleRequest env key request = serviceUnavailable) ∧
    (∀ t, (handleRequestRun env key request).target = some t → env.requestURL t = none →
      handleRequest env key request = serviceUnavailable) ∧
    (∀ m, (handleRequestRun env key request).fetched = some m → env.fetch m = none →
      handleRequest env key request = serviceUnavailable) ∧
    (∀ m up t, (handleRequestRun env key request).fetched = some m →
      (handleRequestRun env key request).target = some t → env.fetch m = some up →
      up.status ∉ redirectStatuses → assemble env request.url t key up = none →
      handleRequest env key request = serviceUnavailable) := by
  refine ⟨⟨_, rfl⟩, run_status env key request, ⟨rfl, rfl, rfl, rfl, rfl⟩, ?_, ?_, ?_, ?_⟩
  · intro s1 rest hseg hdec
    unfold handleRequest
    rw [run_decode_failed env key request s1 rest hseg hdec]
  · intro t ht hr
    unfold handleRequest
    rw [run_request_rejected env key request t ht hr]
  · intro m hf hup
    obtain ⟨target, _, hr⟩ := run_fetched env key request m hf
    unfold handleRequest
    rw [hr, hup]
  · intro m up t hf ht hup hnr hasm
    obtain ⟨target, htarget, hr⟩ := run_fetched env key request m hf
    rw [ht, Option.some.injEq] at htarget
    unfold handleRequest
    rw [hr, hup, ← htarget]
    simp only [hnr, if_false, hasm, Option.getD_none]

theorem handler_total_witness :
    handleRequest unreachableEnv "abc123".toList (getRequest "/abc123/example.com".toList) =
      serviceUnavailable ∧
    handleRequest (sampleEnv samplePage) "abc123".toList (getRequest "/abc123/%E0%A4%A".toList) =
      serviceUnavailable ∧
    handleRequest deadEnv "abc123".toList (getRequest "/abc123/example.com".toList) =
      serviceUnavailable :=
  ⟨(handler_total unreachableEnv "abc123".toList
      (getRequest "/abc123/example.com".toList)).2.2.2.2.2.1
      ⟨"https://example.com".toList, ⟨[]⟩, "GET".toList, none, "manual".toList⟩
      (by decide) rfl,
   (handler_total (sampleEnv samplePage) "abc123".toList
      (getRequest "/abc123/%E0%A4%A".toList)).2.2.2.1 "%E0%A4%A".toList [] (by decide)
      (by decide),
   (handler_total deadEnv "abc123".toList
      (getRequest "/abc123/example.com".toList)).2.2.2.2.1 "https://example.com".toList
      (by decide) rfl⟩

theorem assemble_headers (env : Env) (url : URL) (target key : Str) (up r : Response)
    (h : assemble env url target key up = some r) :
    r.headers = setCorsHeaders (setNoCacheHeaders up.headers.copy) := by
  unfold assemble at h
  dsimp only at h
  split at h
  · exact absurd h (by simp)
  · split at h
    · exact absurd h (by simp)
    · rename_i body hb m hm
      obtain ⟨_, _, hh, _⟩ := newResponse_some _ _ _ _ m hm
      simp only [Option.some.injEq] at h
      rw [← h]
      dsimp only
      rw [hh]

theorem assembled_get_other (h : Headers) (name : Str)
    (hn : ∀ n ∈ fixedHeaderNames, sameName n name = false) :
    (setCorsHeaders (setNoCacheHeaders h)).get name = h.get name := by
  unfold setCorsHeaders setNoCacheHeaders
  rw [get_set_other _ _ _ _ (hn _ (by decide)), get_set_other _ _ _ _ (hn _ (by decide)),
    get_set_other _ _ _ _ (hn _ (by decide)), get_set_other _ _ _ _ (hn _ (by decide)),
    get_set_other _ _ _ _ (hn _ (by decide)), get_set_other _ _ _ _ (hn _ (by decide))]

theorem assembled_fixed (h : Headers) :
    (setCorsHeaders (setNoCacheHeaders h)).get "Cache-Control".toList =
      some "no-cache, no-store, must-revalidate".toList ∧
    (setCorsHeaders (setNoCacheHeaders h)).get "Pragma".toList = some "no-cache".toList ∧
    (setCorsHeaders (setNoCacheHeaders h)).get "Expires".toList = some "0".toList ∧
    (setCorsHeaders (setNoCacheHeaders h)).get "Access-Control-Allow-Origin".toList =
      some "*".toList ∧
    (setCorsHeaders (setNoCacheHeaders h)).get "Access-Control-Allow-Methods".toList =
      some "GET, POST, PUT, DELETE, OPTIONS".toList ∧
    (setCorsHeaders (setNoCacheHeaders h)).get "Access-Control-Allow-Headers".toList =
      some "*".toList := by
  refine ⟨assembled_cache_control h _ (by decide), ?_, ?_,
    assembled_allow_origin h _ (by decide), ?_, ?_⟩
  · unfold setCorsHeaders setNoCacheHeaders
    rw [get_set_other _ _ _ _ (by decide), get_set_other _ _ _ _ (by decide),
      get_set_other _ _ _ _ (by decide), get_set_other _ _ _ _ (by decide),
      get_set_same _ _ _ _ (by decide)]
  · unfold setCorsHeaders setNoCacheHeaders
    rw [get_set_other _ _ _ _ (by decide), get_set_other _ _ _ _ (by decide),
      get_set_other _ _ _ _ (by decide), get_set_same _ _ _ _ (by decide)]
  · unfold setCorsHeaders
    rw [get_set_other _ _ _ _ (by decide), get_set_same _ _ _ _ (by decide)]
  · unfold setCorsHeaders
    rw [get_set_same _ _ _ _ (by decide)]

/-- C13, as amended: on the non-redirect path, when the upstream answered with
a status outside 301, 302, 303, 307, 308 and the response is not the 503
fallback, the emitted response has the upstream status and status text, its
six headers Cache-Control, Pragma, Expires, Access-Control-Allow-Origin,
Access-Control-Allow-Methods and Access-Control-Allow-Headers have the fixed
values whatever the upstream sent, and every other header has its upstream
value. -/
theorem assembled_response (env : Env) (key : Str) (request : Request) (m : OutRequest)
    (up : Response)
    (hf : (handleRequestRun env key request).fetched = some m)
    (hup : env.fetch m = some up)
    (hnr : up.status ∉ redirectStatuses)
    (hok : handleRequest env key request ≠ serviceUnavailable) :
    (handleRequest env key request).status = up.status ∧
    (handleRequest env key request).statusText = up.statusText ∧
    ((handleRequest env key request).headers.get "Cache-Control".toList =
        some "no-cache, no-store, must-revalidate".toList ∧
      (handleRequest env key request).headers.get "Pragma".toList = some "no-cache".toList ∧
      (handleRequest env key request).headers.get "Expires".toList = some "0".toList ∧
      (handleRequest env key request).headers.get "Access-Control-Allow-Origin".toList =
        some "*".toList ∧
      (handleRequest env key request).headers.get "Access-Control-Allow-Methods".toList =
        some "GET, POST, PUT, DELETE, OPTIONS".toList ∧
      (handleRequest env key request).headers.get "Access-Control-Allow-Headers".toList =
        some "*".toList) ∧
    (∀ name, (∀ n ∈ fixedHeaderNames, sameName n name = false) →
      (handleRequest env key request).headers.get name = up.headers.get name) := by
  obtain ⟨target, _, hr⟩ := run_fetched env key request m hf
  rw [hup] at hr
  simp only [hnr, if_false] at hr
  unfold handleRequest at hok ⊢
  cases hasm : assemble env request.url target key up with
  | none =>
    rw [hasm] at hr
    exact absurd hr hok
  | some r =>
    rw [hasm] at hr
    simp only [Option.getD_some] at hr
    obtain ⟨hs, ht, _⟩ := assemble_some env request.url target key up r hasm
    have hh := assemble_headers env request.url target key up r hasm
    rw [hr, hh]
    refine ⟨hs, ht, assembled_fixed _, ?_⟩
    intro name hname
    rw [assembled_get_other _ name hname]
    exact get_entries up.headers name

theorem assembled_response_witness :
    (handleRequest (sampleEnv samplePage) "abc123".toList
      (getRequest "/abc123/https%3A%2F%2Fexample.com%2Findex".toList)).statusText =
      "OK".toList ∧
    (handleRequest (sampleEnv samplePage) "abc123".toList
      (getRequest "/abc123/https%3A%2F%2Fexample.com%2Findex".toList)).headers.get
        "Access-Control-Allow-Origin".toList = some "*".toList ∧
    (handleRequest (sampleEnv samplePage) "abc123".toList
      (getRequest "/abc123/https%3A%2F%2Fexample.com%2Findex".toList)).headers.get
        "content-type".toList = samplePage.headers.get "content-type".toList :=
  have h := assembled_response (sampleEnv samplePage) "abc123".toList
    (getRequest "/abc123/https%3A%2F%2Fexample.com%2Findex".toList)
    ⟨"https://example.com/index".toList, ⟨[]⟩, "GET".toList, none, "manual".toList⟩
    samplePage (by decide) rfl (by decide) (by decide)
  ⟨h.2.1, h.2.2.1.2.2.2.1, h.2.2.2 "content-type".toList (by decide)⟩

/-- C13 fails as stated: an upstream answer with the status 999, which is not
a redirect status, is fetched, the `Response` constructor rejects a status
outside 200..599, and the answer is the 503 fallback, not a response with the
upstream status. -/
theorem unassigned_status_is_503 :
    unassignedStatus.status ∉ redirectStatuses ∧
    ((handleRequestRun (sampleEnv unassignedStatus) "abc123".toList
      (getRequest "/abc123/https%3A%2F%2Fexample.com%2Findex".toList)).fetched.bind
        (sampleEnv unassignedStatus).fetch) = some unassignedStatus ∧
    handleRequest (sampleEnv unassignedStatus) "abc123".toList
      (getRequest "/abc123/https%3A%2F%2Fexample.com%2Findex".toList) = serviceUnavailable ∧
    (handleRequest (sampleEnv unassignedStatus) "abc123".toList
      (getRequest "/abc123/https%3A%2F%2Fexample.com%2Findex".toList)).status ≠
      unassignedStatus.status := by
  decide

/-! ## Idempotence of the protocol defaulting -/

theorem dropWhile_head_false (p : Char → Bool) (s : Str) (c : Char)
    (h : (s.dropWhile p).head? = some c) : p c = false := by
  induction s with
  | nil => simp at h
  | cons a l ih =>
    rw [List.dropWhile_cons] at h
    by_cases ha : p a = true
    · rw [if_pos ha] at h
      exact ih h
    · rw [if_neg ha] at h
      simp only [List.head?_cons, Option.some.injEq] at h
      rw [← h]
      simpa using ha

theorem trim_last (s : Str) (c : Char) (h : (trim s).getLast? = some c) :
    isWhiteSpace c = false := by
  unfold trim at h
  rw [List.getLast?_reverse] at h
  exact dropWhile_head_false _ _ c h

theorem trim_head (s : Str) (c : Char) (h : (trim s).head? = some c) :
    isWhiteSpace c = false := by
  have hpre : trim s <+: s.dropWhile isWhiteSpace := by
    unfold trim
    have hs := List.dropWhile_suffix isWhiteSpace (l := (s.dropWhile isWhiteSpace).reverse)
    have hr := List.reverse_prefix.mpr hs
    rw [List.reverse_reverse] at hr
    exact hr
  obtain ⟨t, ht⟩ := hpre
  apply dropWhile_head_false isWhiteSpace s c
  rw [← ht]
  cases hts : trim s with
  | nil => rw [hts] at h; simp at h
  | cons a l =>
    rw [hts] at h
    simpa using h

theorem trim_trim (s : Str) : trim (trim s) = trim s :=
  trim_eq_self (trim s) (trim_head s) (trim_last s)

theorem ensureProtocol_fixed (r p : Str)
    (hhead : ∀ c, r.head? = some c → isWhiteSpace c = false)
    (hlast : ∀ c, r.getLast? = some c → isWhiteSpace c = false)
    (hstart : startsWith r "http://".toList = true ∨ startsWith r "https://".toList = true) :
    ensureProtocol r p = r := by
  have ht : trim r = r := trim_eq_self r hhead hlast
  rw [ensureProtocol_absolute r p (by rw [ht]; exact hstart), ht]

theorem startsWith_append (a b : Str) : startsWith (a ++ b) a = true := by
  unfold startsWith
  induction a with
  | nil => simp [List.isPrefixOf]
  | cons c cs ih => simp [List.isPrefixOf, ih]

theorem startsWith_split (s p : Str) (h : startsWith s p = true) : ∃ t, s = p ++ t := by
  unfold startsWith at h
  induction p generalizing s with
  | nil => exact ⟨s, rfl⟩
  | cons c cs ih =>
    cases s with
    | nil => simp [List.isPrefixOf] at h
    | cons a l =>
      simp only [List.isPrefixOf, Bool.and_eq_true, beq_iff_eq] at h
      obtain ⟨t, ht⟩ := ih l h.2
      exact ⟨t, by rw [← h.1, ht]; rfl⟩

theorem getLast?_append_cons (a : Str) (c : Char) (l : Str) :
    (a ++ c :: l).getLast? = (c :: l).getLast? := by
  induction a with
  | nil => rfl
  | cons x xs ih =>
    cases hxs : xs ++ c :: l with
    | nil => simp at hxs
    | cons y ys =>
      rw [List.cons_append, hxs, List.getLast?_cons_cons, ← hxs]
      exact ih

theorem ensureProtocol_shape (u p : Str) (hp : p = "http:".toList ∨ p = "https:".toList) :
    (startsWith (ensureProtocol u p) "http://".toList = true ∨
      startsWith (ensureProtocol u p) "https://".toList = true) ∧
    (∀ c, (ensureProtocol u p).head? = some c → isWhiteSpace c = false) ∧
    (∀ c, (ensureProtocol u p).getLast? = some c → isWhiteSpace c = false) := by
  have hh := trim_head u
  have hl := trim_last u
  unfold ensureProtocol
  dsimp only
  generalize trim u = t at hh hl
  by_cases h1 : (startsWith t "http://".toList || startsWith t "https://".toList) = true
  · rw [if_pos h1]
    exact ⟨by simpa using h1, hh, hl⟩
  · rw [if_neg h1]
    by_cases h2 : startsWith t "//".toList = true
    · rw [if_pos h2]
      obtain ⟨t2, rfl⟩ := startsWith_split t _ h2
      refine ⟨?_, ?_, ?_⟩
      · rcases hp with rfl | rfl
        · exact Or.inl (startsWith_append "http://".toList t2)
        · exact Or.inr (startsWith_append "https://".toList t2)
      · intro c hc
        rcases hp with rfl | rfl <;>
          · simp only [String.toList, List.cons_append, List.head?_cons,
              Option.some.injEq] at hc
            rw [← hc]
            decide
      · intro c hc
        apply hl c
        rw [← hc]
        exact (getLast?_append_cons p '/' _).symm
    · rw [if_neg h2]
      refine ⟨?_, ?_, ?_⟩
      · rcases hp with rfl | rfl
        · exact Or.inl (startsWith_append "http://".toList t)
        · exact Or.inr (startsWith_append "https://".toList t)
      · intro c hc
        rcases hp with rfl | rfl <;>
          · simp only [String.toList, List.cons_append, List.head?_cons,
              Option.some.injEq] at hc
            rw [← hc]
            decide
      · intro c hc
        cases t with
        | nil =>
          rcases hp with rfl | rfl <;>
            · have e : c = '/' := by
                have := hc
                simp [String.toList] at this
                exact this.symm
              rw [e]
              decide
        | cons a l =>
          apply hl c
          rw [← hc]
          exact (getLast?_append_cons (p ++ "//".toList) a l).symm

/-- C19: for the default protocol `http:` or `https:` and every string,
the result of `ensureProtocol` starts with `http://` or `https://`, and
applying `ensureProtocol` to the result gives the result again. -/
theorem ensureProtocol_idempotent (u p : Str) (hp : p = "http:".toList ∨ p = "https:".toList) :
    (startsWith (ensureProtocol u p) "http://".toList = true ∨
      startsWith (ensureProtocol u p) "https://".toList = true) ∧
    ensureProtocol (ensureProtocol u p) p = ensureProtocol u p := by
  obtain ⟨hs, hh, hl⟩ := ensureProtocol_shape u p hp
  exact ⟨hs, ensureProtocol_fixed _ p hh hl hs⟩

theorem ensureProtocol_idempotent_witness :
    ensureProtocol (ensureProtocol "  example.com/a b ".toList "https:".toList) "https:".toList =
      ensureProtocol "  example.com/a b ".toList "https:".toList ∧
    ensureProtocol "  example.com/a b ".toList "https:".toList =
      "https://example.com/a b".toList :=
  ⟨(ensureProtocol_idempotent "  example.com/a b ".toList "https:".toList
      (Or.inr rfl)).2, by decide⟩

/-! ## The scan of the HTML rewriter -/

theorem matchAttrName_sound (s attr rest : Str) (h : matchAttrName s = some (attr, rest)) :
    s = attr ++ rest ∧
    (toLowerCase attr = "href".toList ∨ toLowerCase attr = "src".toList ∨
      toLowerCase attr = "action".toList) := by
  unfold matchAttrName at h
  simp only [List.findSome?_cons, List.findSome?_nil] at h
  split at h
  · rename_i x hx
    split_ifs at hx with h1
    simp only [Option.some.injEq] at hx
    rw [← hx] at h
    simp only [Option.some.injEq, Prod.mk.injEq] at h
    rw [← h.1, ← h.2]
    exact ⟨(List.take_append_drop _ _).symm, Or.inl h1⟩
  · split at h
    · rename_i x hx
      split_ifs at hx with h1
      simp only [Option.some.injEq] at hx
      rw [← hx] at h
      simp only [Option.some.injEq, Prod.mk.injEq] at h
      rw [← h.1, ← h.2]
      exact ⟨(List.take_append_drop _ _).symm, Or.inr (Or.inl h1)⟩
    · split at h
      · rename_i x hx
        split_ifs at hx with h1
        simp only [Option.some.injEq] at hx
        rw [← hx] at h
        simp only [Option.some.injEq, Prod.mk.injEq] at h
        rw [← h.1, ← h.2]
        exact ⟨(List.take_append_drop _ _).symm, Or.inr (Or.inr h1)⟩
      · simp at h

theorem matchAt_sound (s : Str) (m : AttrMatch) (h : matchAt s = some m) :
    m.WF ∧ ∃ rest, s = m.text ++ rest := by
  unfold matchAt at h
  split at h
  · simp at h
  · rename_i attr rest hn
    obtain ⟨hs, hattr⟩ := matchAttrName_sound s attr rest hn
    split at h
    · rename_i e q rest2
      split_ifs at h with hq
      dsimp only at h
      split at h
      · rename_i u us q2 t hu hd
        simp only [Option.some.injEq] at h
        have hsplit := List.takeWhile_append_dropWhile (fun c => !isQuote c) rest2
        have hq2 : isQuote q2 = true := by
          have := dropWhile_head_false (fun c => !isQuote c) rest2 q2 (by rw [hd]; rfl)
          simpa using this
        have hall : ∀ c ∈ rest2.takeWhile (fun c => !isQuote c), isQuote c = false := by
          intro c hc
          have := List.mem_takeWhile_imp hc
          simpa using this
        rw [← h]
        refine ⟨⟨hattr, hq.2, hq2, ?_, ?_⟩, t, ?_⟩
        · dsimp only
          rw [hu]
          simp
        · exact hall
        · have e2 : rest2 = rest2.takeWhile (fun c => !isQuote c) ++ q2 :: t := by
            rw [← hd]
            exact hsplit.symm
          rw [hs, hq.1]
          unfold AttrMatch.text
          dsimp only
          generalize rest2.takeWhile (fun c => !isQuote c) = tw at e2
          rw [e2]
          simp
      · simp at h
    · simp at h

theorem text_append (m : AttrMatch) (rest : Str) :
    m.text ++ rest = m.attr ++ '=' :: m.openQ :: (m.url ++ m.closeQ :: rest) := by
  unfold AttrMatch.text
  simp

theorem matchAt_complete (m : AttrMatch) (rest : Str) (h : m.WF) :
    matchAt (m.text ++ rest) = some m := by
  obtain ⟨hattr, hq1, hq2, hv, hvq⟩ := h
  rw [text_append]
  exact matchAt_attr m.attr m.url rest m.openQ m.closeQ hattr hq1 hq2 hv hvq

theorem text_ne_nil (m : AttrMatch) : m.text ≠ [] := by
  unfold AttrMatch.text
  simp

theorem replaceAll_eq_render (f : AttrMatch → Str) (s : Str) :
    ∀ k, replaceAll f k s = renderOf f (scan k s) := by
  induction s with
  | nil =>
    intro k
    cases k <;> rfl
  | cons c cs ih =>
    intro k
    cases k with
    | succ k =>
      rw [replaceAll, scan]
      exact ih k
    | zero =>
      rw [replaceAll, scan]
      cases matchAt (c :: cs) with
      | none =>
        dsimp only
        rw [ih 0]
        rfl
      | some m =>
        dsimp only
        rw [ih]
        rfl

theorem scan_source (s : Str) : ∀ k, sourceOf (scan k s) = s.drop k := by
  induction s with
  | nil =>
    intro k
    cases k <;> rfl
  | cons c cs ih =>
    intro k
    cases k with
    | succ k =>
      rw [scan, List.drop_succ_cons]
      exact ih k
    | zero =>
      rw [scan]
      cases hm : matchAt (c :: cs) with
      | none =>
        dsimp only
        show [c] ++ sourceOf (scan 0 cs) = _
        rw [ih 0]
        rfl
      | some m =>
        dsimp only
        show m.text ++ sourceOf (scan (m.text.length - 1) cs) = _
        rw [ih]
        obtain ⟨_, rest, hrest⟩ := matchAt_sound _ m hm
        cases ht : m.text with
        | nil => exact absurd ht (text_ne_nil m)
        | cons a t =>
          rw [ht, List.cons_append] at hrest
          injection hrest with h1 h2
          rw [h2, h1]
          simp

theorem scan_hits (s : Str) : ∀ k m, Piece.hit m ∈ scan k s → m.WF := by
  induction s with
  | nil =>
    intro k m h
    cases k <;> simp [scan] at h
  | cons c cs ih =>
    intro k m h
    cases k with
    | succ k =>
      rw [scan] at h
      exact ih k m h
    | zero =>
      rw [scan] at h
      cases hm : matchAt (c :: cs) with
      | none =>
        rw [hm] at h
        simp only [List.mem_cons] at h
        rcases h with h | h
        · cases h
        · exact ih 0 m h
      | some m2 =>
        rw [hm] at h
        simp only [List.mem_cons] at h
        rcases h with h | h
        · injection h with h
          rw [h]
          exact (matchAt_sound _ m2 hm).1
        · exact ih _ m h

theorem replaceAll_id (f : AttrMatch → Str) (s : Str)
    (h : ∀ i m, matchAt (s.drop i) = some m → f m = m.text) :
    ∀ k, replaceAll f k s = s.drop k := by
  induction s with
  | nil =>
    intro k
    cases k <;> rfl
  | cons c cs ih =>
    have hcs : ∀ i m, matchAt (cs.drop i) = some m → f m = m.text := by
      intro i m hm
      exact h (i + 1) m (by simpa using hm)
    intro k
    cases k with
    | succ k =>
      rw [replaceAll, List.drop_succ_cons]
      exact ih hcs k
    | zero =>
      rw [replaceAll]
      cases hm : matchAt (c :: cs) with
      | none =>
        dsimp only
        rw [ih hcs 0]
        rfl
      | some m =>
        dsimp only
        rw [ih hcs, h 0 m (by simpa using hm)]
        obtain ⟨_, rest, hrest⟩ := matchAt_sound _ m hm
        cases ht : m.text with
        | nil => exact absurd ht (text_ne_nil m)
        | cons a t =>
          rw [ht, List.cons_append] at hrest
          injection hrest with h1 h2
          rw [List.drop_zero, h1, h2]
          simp

theorem rewriteAttr_skip (env : Env) (baseUrl proxyStart : Str) (m : AttrMatch)
    (h : startsWith m.url "#".toList = true ∨ includes m.url "://".toList = true ∨
      startsWith m.url "javascript:".toList = true) :
    rewriteAttr env baseUrl proxyStart m = m.text := by
  unfold rewriteAttr
  rw [if_pos]
  rcases h with h | h | h <;> rw [h] <;> simp

theorem rewriteAttr_unresolved (env : Env) (baseUrl proxyStart : Str) (m : AttrMatch)
    (h : env.parseURL m.url (some baseUrl) = none) :
    rewriteAttr env baseUrl proxyStart m = m.text := by
  unfold rewriteAttr
  split_ifs
  · rfl
  · rw [h]

theorem rewriteAttr_cases (env : Env) (baseUrl proxyStart : Str) (m : AttrMatch) :
    rewriteAttr env baseUrl proxyStart m = m.text ∨
    (startsWith m.url "#".toList = false ∧ includes m.url "://".toList = false ∧
      startsWith m.url "javascript:".toList = false ∧
      ∃ A, env.parseURL m.url (some baseUrl) = some A ∧
        rewriteAttr env baseUrl proxyStart m =
          m.attr ++ ['=', dquote] ++ proxyStart ++ encodeURIComponent A ++ [dquote]) := by
  unfold rewriteAttr
  split_ifs with h
  · exact Or.inl rfl
  · cases hp : env.parseURL m.url (some baseUrl) with
    | none => exact Or.inl rfl
    | some A =>
      right
      simp only [Bool.or_eq_true, decide_eq_true_eq, not_or, Bool.not_eq_true] at h
      exact ⟨h.1.1.2, h.1.2, h.2, A, rfl, rfl⟩

theorem replaceRelativePaths_pieces (env : Env) (text protocol host target key base : Str)
    (hbase : env.parseURL target none = some base) :
    text = sourceOf (scan 0 text) ∧
    replaceRelativePaths env text protocol host target key =
      some (renderOf
        (rewriteAttr env base (protocol ++ "//".toList ++ host ++ "/".toList ++ key ++ "/".toList))
        (scan 0 text)) := by
  constructor
  · rw [scan_source, List.drop_zero]
  · unfold replaceRelativePaths
    rw [hbase]
    dsimp only
    rw [replaceAll_eq_render]

/-- C20: when the target parses as a URL, the body splits into pieces, each a
single character outside the matches or a matched attribute, such that the
output is the same pieces in the same order with every character piece as it
is and every matched attribute either kept as it is or replaced by its proxied
form; a match whose value does not resolve to a URL is kept as it is; and a
text in which the pattern matches nowhere is returned unchanged. -/
theorem rewriter_frame (env : Env) (text protocol host target key base : Str)
    (hbase : env.parseURL target none = some base) :
    (∃ pieces : List Piece,
      text = sourceOf pieces ∧
      replaceRelativePaths env text protocol host target key =
        some (renderOf
          (rewriteAttr env base
            (protocol ++ "//".toList ++ host ++ "/".toList ++ key ++ "/".toList))
          pieces) ∧
      (∀ p ∈ pieces,
        (∃ c, p = Piece.lit c ∧ p.source = [c] ∧
          p.render (rewriteAttr env base
            (protocol ++ "//".toList ++ host ++ "/".toList ++ key ++ "/".toList)) = [c]) ∨
        (∃ m, p = Piece.hit m ∧ m.WF ∧ p.source = m.text ∧
          (p.render (rewriteAttr env base
              (protocol ++ "//".toList ++ host ++ "/".toList ++ key ++ "/".toList)) = m.text ∨
            ∃ A, env.parseURL m.url (some base) = some A ∧
              p.render (rewriteAttr env base
                (protocol ++ "//".toList ++ host ++ "/".toList ++ key ++ "/".toList)) =
                m.attr ++ ['=', dquote] ++
                  (protocol ++ "//".toList ++ host ++ "/".toList ++ key ++ "/".toList) ++
                  encodeURIComponent A ++ [dquote]) ∧
          (env.parseURL m.url (some base) = none →
            p.render (rewriteAttr env base
              (protocol ++ "//".toList ++ host ++ "/".toList ++ key ++ "/".toList)) =
              m.text)))) ∧
    ((∀ i, matchAt (text.drop i) = none) →
      replaceRelativePaths env text protocol host target key = some text) := by
  obtain ⟨h1, h2⟩ := replaceRelativePaths_pieces env text protocol host target key base hbase
  refine ⟨⟨scan 0 text, h1, h2, ?_⟩, ?_⟩
  · intro p hp
    cases p with
    | lit c => exact Or.inl ⟨c, rfl, rfl, rfl⟩
    | hit m =>
      right
      refine ⟨m, rfl, scan_hits text 0 m hp, rfl, ?_, ?_⟩
      · rcases rewriteAttr_cases env base
            (protocol ++ "//".toList ++ host ++ "/".toList ++ key ++ "/".toList) m with h | h
        · exact Or.inl h
        · obtain ⟨_, _, _, A, hA, hr⟩ := h
          exact Or.inr ⟨A, hA, hr⟩
      · intro hn
        exact rewriteAttr_unresolved env base _ m hn
  · intro hnone
    unfold replaceRelativePaths
    rw [hbase]
    dsimp only
    rw [replaceAll_id _ text (fun i m hm => by rw [hnone i] at hm; simp at hm) 0, List.drop_zero]

theorem rewriter_frame_witness :
    replaceRelativePaths (sampleEnv samplePage) "<p class=x>no links here</p>".toList
      "https:".toList "proxy.example".toList "https://example.com/index".toList
      "abc123".toList = some "<p class=x>no links here</p>".toList :=
  (rewriter_frame (sampleEnv samplePage) "<p class=x>no links here</p>".toList
    "https:".toList "proxy.example".toList "https://example.com/index".toList "abc123".toList
    "https://example.com/index".toList (by decide)).2 (by
      intro i
      by_cases hi : i < 28
      · revert i
        decide
      · have hd : "<p class=x>no links here</p>".toList.drop i = [] := by
          apply List.drop_eq_nil_of_le
          have : "<p class=x>no links here</p>".toList.length = 28 := by decide
          omega
        rw [hd]
        decide)

theorem includes_mid (a p b : Str) : includes (a ++ p ++ b) p = true := by
  unfold includes
  induction a with
  | nil =>
    rw [List.nil_append]
    cases hp : p ++ b with
    | nil =>
      have : p = [] := (List.append_eq_nil.mp hp).1
      simp [this, List.tails]
    | cons c l =>
      rw [← hp]
      have h := startsWith_append p b
      unfold startsWith at h
      rw [hp] at h ⊢
      simp [List.tails, h]
  | cons c cs ih =>
    rw [List.cons_append, List.cons_append, List.tails, List.any_cons, ih, Bool.or_true]

theorem proxied_includes_authority (scheme host key url : Str)
    (h : startsWith url
      ((scheme ++ [':']) ++ "//".toList ++ host ++ "/".toList ++ key ++ "/".toList) = true) :
    includes url "://".toList = true := by
  obtain ⟨t, ht⟩ := startsWith_split url _ h
  have e : url = scheme ++ "://".toList ++ (host ++ "/".toList ++ key ++ "/".toList ++ t) := by
    rw [ht]
    simp
  rw [e]
  exact includes_mid scheme "://".toList _

/-- C11: a matched attribute whose value starts with `#`, contains `://` or
starts with `javascript:` is returned by the callback as the matched text, so
in the output of `replaceRelativePaths` every such piece of the body is
character for character the piece of the input; and a body in which every
match of the pattern has a value that starts with protocol + `//` + host + `/`
+ key + `/`, the protocol ending with a colon as the protocol of a URL does, is
returned unchanged. -/
theorem skip_rule (env : Env) (text protocol host target key base : Str)
    (hbase : env.parseURL target none = some base) :
    (∀ m : AttrMatch,
      (startsWith m.url "#".toList = true ∨ includes m.url "://".toList = true ∨
        startsWith m.url "javascript:".toList = true) →
      rewriteAttr env base
        (protocol ++ "//".toList ++ host ++ "/".toList ++ key ++ "/".toList) m = m.text) ∧
    (∃ pieces : List Piece,
      text = sourceOf pieces ∧
      replaceRelativePaths env text protocol host target key =
        some (renderOf
          (rewriteAttr env base
            (protocol ++ "//".toList ++ host ++ "/".toList ++ key ++ "/".toList))
          pieces) ∧
      (∀ m, Piece.hit m ∈ pieces →
        (startsWith m.url "#".toList = true ∨ includes m.url "://".toList = true ∨
          startsWith m.url "javascript:".toList = true) →
        (Piece.hit m).render (rewriteAttr env base
          (protocol ++ "//".toList ++ host ++ "/".toList ++ key ++ "/".toList)) =
          (Piece.hit m).source)) ∧
    ((∃ scheme, protocol = scheme ++ [':']) →
      (∀ i m, matchAt (text.drop i) = some m →
        startsWith m.url
          (protocol ++ "//".toList ++ host ++ "/".toList ++ key ++ "/".toList) = true) →
      replaceRelativePaths env text protocol host target key = some text) := by
  obtain ⟨h1, h2⟩ := replaceRelativePaths_pieces env text protocol host target key base hbase
  refine ⟨fun m hm => rewriteAttr_skip env base _ m hm,
    ⟨scan 0 text, h1, h2, fun m _ hm => rewriteAttr_skip env base _ m hm⟩, ?_⟩
  rintro ⟨scheme, rfl⟩ hall
  unfold replaceRelativePaths
  rw [hbase]
  dsimp only
  rw [replaceAll_id _ text _ 0, List.drop_zero]
  intro i m hm
  exact rewriteAttr_skip env base _ m
    (Or.inr (Or.inl (proxied_includes_authority scheme host key m.url (hall i m hm))))

theorem skip_rule_witness :
    replaceRelativePaths (sampleEnv samplePage)
      ("<a href=".toList ++ [dquote] ++
        "https://proxy.example/abc123/https%3A%2F%2Fexample.com%2Fabout".toList ++
        [dquote] ++ ">".toList)
      "https:".toList "proxy.example".toList "https://example.com/index".toList
      "abc123".toList =
      some ("<a href=".toList ++ [dquote] ++
        "https://proxy.example/abc123/https%3A%2F%2Fexample.com%2Fabout".toList ++
        [dquote] ++ ">".toList) :=
  (skip_rule (sampleEnv samplePage)
    ("<a href=".toList ++ [dquote] ++
      "https://proxy.example/abc123/https%3A%2F%2Fexample.com%2Fabout".toList ++
      [dquote] ++ ">".toList)
    "https:".toList "proxy.example".toList "https://example.com/index".toList "abc123".toList
    "https://example.com/index".toList (by decide)).2.2 ⟨"https".toList, rfl⟩ (by
      intro i m hm
      have hall : ∀ j, j < 73 →
          (matchAt (("<a href=".toList ++ [dquote] ++
            "https://proxy.example/abc123/https%3A%2F%2Fexample.com%2Fabout".toList ++
            [dquote] ++ ">".toList).drop j)).all (fun m => startsWith m.url
              ("https:".toList ++ "//".toList ++ "proxy.example".toList ++ "/".toList ++
                "abc123".toList ++ "/".toList)) = true := by
        decide
      by_cases hi : i < 73
      · have h := hall i hi
        rw [hm] at h
        exact h
      · have hd : ("<a href=".toList ++ [dquote] ++
            "https://proxy.example/abc123/https%3A%2F%2Fexample.com%2Fabout".toList ++
            [dquote] ++ ">".toList).drop i = [] := by
          apply List.drop_eq_nil_of_le
          have : ("<a href=".toList ++ [dquote] ++
            "https://proxy.example/abc123/https%3A%2F%2Fexample.com%2Fabout".toList ++
            [dquote] ++ ">".toList).length = 73 := by decide
          omega
        have hn : matchAt [] = none := by decide
        rw [hd, hn] at hm
        exact absurd hm (by simp))

/-- C12, as amended: every matched attribute that `replaceRelativePaths`
changes has a value that does not start with `#` or `javascript:` and does not
contain `://`, and its replacement encodes the URL the value resolves to against
the parsed target URL; a matched attribute whose value contains `://`, whatever
its origin, is kept as it is. -/
theorem rewrites_without_authority_only (env : Env) (text protocol host target key base : Str)
    (hbase : env.parseURL target none = some base) :
    ∃ pieces : List Piece,
      text = sourceOf pieces ∧
      replaceRelativePaths env text protocol host target key =
        some (renderOf
          (rewriteAttr env base
            (protocol ++ "//".toList ++ host ++ "/".toList ++ key ++ "/".toList))
          pieces) ∧
      (∀ m, Piece.hit m ∈ pieces →
        (includes m.url "://".toList = true →
          (Piece.hit m).render (rewriteAttr env base
            (protocol ++ "//".toList ++ host ++ "/".toList ++ key ++ "/".toList)) =
            (Piece.hit m).source) ∧
        ((Piece.hit m).render (rewriteAttr env base
            (protocol ++ "//".toList ++ host ++ "/".toList ++ key ++ "/".toList)) ≠
            (Piece.hit m).source →
          startsWith m.url "#".toList = false ∧ includes m.url "://".toList = false ∧
          startsWith m.url "javascript:".toList = false ∧
          ∃ A, env.parseURL m.url (some base) = some A ∧
            (Piece.hit m).render (rewriteAttr env base
              (protocol ++ "//".toList ++ host ++ "/".toList ++ key ++ "/".toList)) =
              m.attr ++ ['=', dquote] ++
                (protocol ++ "//".toList ++ host ++ "/".toList ++ key ++ "/".toList) ++
                encodeURIComponent A ++ [dquote])) := by
  obtain ⟨h1, h2⟩ := replaceRelativePaths_pieces env text protocol host target key base hbase
  refine ⟨scan 0 text, h1, h2, ?_⟩
  intro m _
  constructor
  · intro hinc
    exact rewriteAttr_skip env base _ m (Or.inr (Or.inl hinc))
  · intro hne
    rcases rewriteAttr_cases env base
        (protocol ++ "//".toList ++ host ++ "/".toList ++ key ++ "/".toList) m with h | h
    · exact absurd h hne
    · exact h

theorem rewrites_without_authority_only_witness :
    ∃ pieces : List Piece,
      "<a href=".toList ++ [dquote] ++ "/about".toList ++ [dquote] ++ ">".toList =
        sourceOf pieces ∧
      replaceRelativePaths (sampleEnv samplePage)
        ("<a href=".toList ++ [dquote] ++ "/about".toList ++ [dquote] ++ ">".toList)
        "https:".toList "proxy.example".toList "https://example.com/index".toList
        "abc123".toList =
        some (renderOf
          (rewriteAttr (sampleEnv samplePage) "https://example.com/index".toList
            ("https:".toList ++ "//".toList ++ "proxy.example".toList ++ "/".toList ++
              "abc123".toList ++ "/".toList))
          pieces) :=
  have h := rewrites_without_authority_only (sampleEnv samplePage)
    ("<a href=".toList ++ [dquote] ++ "/about".toList ++ [dquote] ++ ">".toList)
    "https:".toList "proxy.example".toList "https://example.com/index".toList "abc123".toList
    "https://example.com/index".toList (by decide)
  h.elim (fun pieces hp => ⟨pieces, hp.1, hp.2.1⟩)

/-- C12 fails as stated: the value `//other.example/lib.js` contains no `://`
and resolves against `https://example.com/index` to
`https://other.example/lib.js`; the attribute is rewritten, and the URL encoded
into the replacement has another origin than the target. -/
theorem other_origin_is_rewritten :
    crossOriginEnv.parseURL "//other.example/lib.js".toList
      (some "https://example.com/index".toList) = some "https://other.example/lib.js".toList ∧
    replaceRelativePaths crossOriginEnv
      ("<script src=".toList ++ [dquote] ++ "//other.example/lib.js".toList ++ [dquote] ++
        ">".toList)
      "https:".toList "proxy.example".toList "https://example.com/index".toList
      "abc123".toList =
      some ("<script src=".toList ++ [dquote] ++ "https://proxy.example/abc123/".toList ++
        encodeURIComponent "https://other.example/lib.js".toList ++ [dquote] ++ ">".toList) ∧
    origin "https://other.example/lib.js".toList = "https://other.example".toList ∧
    origin "https://example.com/index".toList = "https://example.com".toList ∧
    origin "https://other.example/lib.js".toList ≠ origin "https://example.com/index".toList := by
  decide

/-! ## Idempotence of the HTML rewriter -/

theorem lower_mem_attrNames (attr : Str)
    (h : toLowerCase attr = "href".toList ∨ toLowerCase attr = "src".toList ∨
      toLowerCase attr = "action".toList) : toLowerCase attr ∈ attrNames := by
  unfold attrNames
  rcases h with h | h | h <;> rw [h] <;> decide

theorem attrNames_chars : ∀ name ∈ attrNames, ∀ c ∈ name,
    c ≠ '=' ∧ c ≠ dquote ∧ c ≠ squote := by
  decide

theorem toLower_special (c : Char) (h : c = '=' ∨ c = dquote ∨ c = squote) : c.toLower = c := by
  rcases h with h | h | h <;> rw [h] <;> decide

theorem attr_chars (attr : Str) (hattr : toLowerCase attr ∈ attrNames) (c : Char)
    (hc : c ∈ attr) : c ≠ '=' ∧ isQuote c = false := by
  have hl : c.toLower ∈ toLowerCase attr := List.mem_map_of_mem _ hc
  have h := attrNames_chars _ hattr _ hl
  refine ⟨?_, ?_⟩
  · intro e
    rw [toLower_special c (Or.inl e)] at h
    exact h.1 e
  · by_contra hq
    have hq2 : c = dquote ∨ c = squote := by
      unfold isQuote at hq
      by_cases hd : c = dquote
      · exact Or.inl hd
      · right
        by_contra hs
        exact hq (by simp [hd, hs])
    rcases hq2 with e | e
    · rw [toLower_special c (Or.inr (Or.inl e))] at h
      exact h.2.1 e
    · rw [toLower_special c (Or.inr (Or.inr e))] at h
      exact h.2.2 e

theorem attr_ne_nil (attr : Str) (hattr : toLowerCase attr ∈ attrNames) : attr ≠ [] := by
  intro e
  rw [e] at hattr
  exact absurd hattr (by decide)

theorem attrNames_suffix : ∀ x ∈ attrNames, ∀ y ∈ attrNames, y <:+ x → y.length = x.length := by
  decide

theorem attr_no_proper_suffix (a1 a2 : Str) (h : toLowerCase (a1 ++ a2) ∈ attrNames)
    (h2 : toLowerCase a2 ∈ attrNames) : a1 = [] := by
  have hs : toLowerCase a2 <:+ toLowerCase (a1 ++ a2) := by
    unfold toLowerCase
    rw [List.map_append]
    exact List.suffix_append _ _
  have hlen := attrNames_suffix _ h _ h2 hs
  unfold toLowerCase at hlen
  simp only [List.length_map, List.length_append] at hlen
  exact List.eq_nil_of_length_eq_zero (by omega)

theorem eq_split_unique (a b x y : Str) (ha : '=' ∉ a) (hb : '=' ∉ b)
    (h : a ++ '=' :: x = b ++ '=' :: y) : a = b ∧ x = y := by
  induction a generalizing b with
  | nil =>
    cases b with
    | nil => simpa using h
    | cons c cs =>
      simp only [List.nil_append, List.cons_append, List.cons.injEq] at h
      exact absurd (by simp [← h.1]) hb
  | cons c cs ih =>
    cases b with
    | nil =>
      simp only [List.nil_append, List.cons_append, List.cons.injEq] at h
      exact absurd (by simp [h.1]) ha
    | cons d ds =>
      simp only [List.cons_append, List.cons.injEq] at h
      have := ih ds (fun e => ha (List.mem_cons_of_mem _ e))
        (fun e => hb (List.mem_cons_of_mem _ e)) h.2
      exact ⟨by rw [h.1, this.1], this.2⟩

theorem renderOf_cons (f : AttrMatch → Str) (p : Piece) (L : List Piece) :
    renderOf f (p :: L) = p.render f ++ renderOf f L := rfl

theorem sourceOf_cons (p : Piece) (L : List Piece) :
    sourceOf (p :: L) = p.source ++ sourceOf L := rfl

theorem good_tail (f : AttrMatch → Str) (p : Piece) (L : List Piece) (h : Good f (p :: L)) :
    Good f L :=
  fun m hm => h m (List.mem_cons_of_mem _ hm)

theorem good_lit (f : AttrMatch → Str) (c : Char) (L : List Piece) (h : Good f L) :
    Good f (Piece.lit c :: L) := by
  intro m hm
  simp only [List.mem_cons] at hm
  rcases hm with hm | hm
  · cases hm
  · exact h m hm

theorem window (f : AttrMatch → Str) (L : List Piece) (hg : Good f L) :
    ∀ a r2, '=' ∉ a → renderOf f L = a ++ '=' :: r2 →
      (∃ L2, sourceOf L = a ++ '=' :: sourceOf L2 ∧ r2 = renderOf f L2 ∧ Good f L2) ∨
      (∃ (a1 : Str) (m : AttrMatch) (rest : Str),
        a = a1 ++ m.attr ∧ m.WF ∧ sourceOf L = a1 ++ (m.text ++ rest)) := by
  induction L with
  | nil =>
    intro a r2 _ h
    simp [renderOf] at h
  | cons p L ih =>
    intro a r2 ha h
    have hgL := good_tail f p L hg
    cases p with
    | lit c =>
      rw [renderOf_cons] at h
      change c :: renderOf f L = a ++ '=' :: r2 at h
      cases a with
      | nil =>
        simp only [List.nil_append, List.cons.injEq] at h
        left
        refine ⟨L, ?_, h.2.symm, hgL⟩
        rw [sourceOf_cons, h.1]
        rfl
      | cons d ds =>
        simp only [List.cons_append, List.cons.injEq] at h
        rcases ih hgL ds r2 (fun e => ha (List.mem_cons_of_mem _ e)) h.2 with
          ⟨L2, h1, h2, h3⟩ | ⟨a1, m, rest, h1, h2, h3⟩
        · left
          refine ⟨L2, ?_, h2, h3⟩
          rw [sourceOf_cons, h1, h.1]
          rfl
        · right
          refine ⟨d :: a1, m, rest, by rw [h1]; rfl, h2, ?_⟩
          rw [sourceOf_cons, h3, h.1]
          rfl
    | hit m =>
      obtain ⟨hwf, q, w, hq, hf⟩ := hg m (List.mem_cons_self _ _)
      rw [renderOf_cons] at h
      change f m ++ renderOf f L = a ++ '=' :: r2 at h
      rw [hf] at h
      have hattr := lower_mem_attrNames m.attr hwf.1
      have hm : '=' ∉ m.attr := fun e => (attr_chars m.attr hattr '=' e).1 rfl
      have h2 : m.attr ++ '=' :: (q :: w ++ renderOf f L) = a ++ '=' :: r2 := by
        rw [← h]
        simp
      have := eq_split_unique _ _ _ _ hm ha h2
      right
      exact ⟨[], m, sourceOf L, by rw [← this.1]; rfl, hwf, rfl⟩

theorem source_head_nonquote (f : AttrMatch → Str) (L : List Piece) (hg : Good f L)
    (x : Char) (t : Str) (h : renderOf f L = x :: t) (hx : isQuote x = false) :
    ∃ y t2, sourceOf L = y :: t2 ∧ isQuote y = false := by
  cases L with
  | nil => simp [renderOf] at h
  | cons p L =>
    cases p with
    | lit c =>
      rw [renderOf_cons] at h
      change c :: renderOf f L = x :: t at h
      simp only [List.cons.injEq] at h
      exact ⟨c, sourceOf L, rfl, by rw [h.1]; exact hx⟩
    | hit m =>
      obtain ⟨hwf, _⟩ := hg m (List.mem_cons_self _ _)
      have hattr := lower_mem_attrNames m.attr hwf.1
      cases hma : m.attr with
      | nil => exact absurd hma (attr_ne_nil m.attr hattr)
      | cons y ys =>
        refine ⟨y, ys ++ '=' :: m.openQ :: (m.url ++ m.closeQ :: sourceOf L), ?_, ?_⟩
        · rw [sourceOf_cons]
          change m.text ++ sourceOf L = _
          rw [text_append, hma]
          rfl
        · exact (attr_chars m.attr hattr y (by rw [hma]; exact List.mem_cons_self _ _)).2

theorem source_has_quote (f : AttrMatch → Str) (L : List Piece) (hg : Good f L)
    (h : ∃ c ∈ renderOf f L, isQuote c = true) : ∃ c ∈ sourceOf L, isQuote c = true := by
  induction L with
  | nil => simp [renderOf] at h
  | cons p L ih =>
    cases p with
    | lit c =>
      obtain ⟨x, hx, hq⟩ := h
      rw [renderOf_cons] at hx
      change x ∈ c :: renderOf f L at hx
      rw [List.mem_cons] at hx
      rcases hx with hx | hx
      · exact ⟨c, by rw [sourceOf_cons]; exact List.mem_cons_self _ _, by rw [← hx]; exact hq⟩
      · obtain ⟨y, hy, hyq⟩ := ih (good_tail f _ L hg) ⟨x, hx, hq⟩
        exact ⟨y, by rw [sourceOf_cons]; exact List.mem_append_right _ hy, hyq⟩
    | hit m =>
      obtain ⟨hwf, _⟩ := hg m (List.mem_cons_self _ _)
      refine ⟨m.openQ, ?_, hwf.2.1⟩
      rw [sourceOf_cons]
      apply List.mem_append_left
      change m.openQ ∈ m.text
      unfold AttrMatch.text
      simp

theorem split_at_quote (s : Str) (y : Char) (t : Str) (hs : s = y :: t)
    (hy : isQuote y = false) (hq : ∃ c ∈ s, isQuote c = true) :
    ∃ u q3 rest2, s = u ++ q3 :: rest2 ∧ u ≠ [] ∧ (∀ c ∈ u, isQuote c = false) ∧
      isQuote q3 = true := by
  have hsplit := List.takeWhile_append_dropWhile (fun c => !isQuote c) s
  cases hd : s.dropWhile (fun c => !isQuote c) with
  | nil =>
    rw [List.dropWhile_eq_nil_iff] at hd
    obtain ⟨c, hc, hcq⟩ := hq
    have := hd c hc
    simp [hcq] at this
  | cons q3 rest2 =>
    refine ⟨s.takeWhile (fun c => !isQuote c), q3, rest2, ?_, ?_, ?_, ?_⟩
    · rw [← hd]
      exact hsplit.symm
    · rw [hs, List.takeWhile_cons]
      simp [hy]
    · intro c hc
      have := List.mem_takeWhile_imp hc
      simpa using this
    · have := dropWhile_head_false (fun c => !isQuote c) s q3 (by rw [hd]; rfl)
      simpa using this

theorem matchAt_render_none (f : AttrMatch → Str) (c : Char) (L : List Piece)
    (hg : Good f L) (hnone : matchAt (c :: sourceOf L) = none) :
    matchAt (c :: renderOf f L) = none := by
  cases hm : matchAt (c :: renderOf f L) with
  | none => rfl
  | some m2 =>
    exfalso
    obtain ⟨hwf, rest, hrest⟩ := matchAt_sound _ m2 hm
    rw [text_append] at hrest
    have hattr := lower_mem_attrNames m2.attr hwf.1
    have hno : '=' ∉ m2.attr := fun e => (attr_chars m2.attr hattr '=' e).1 rfl
    have hsrc : sourceOf (Piece.lit c :: L) = c :: sourceOf L := rfl
    rcases window f (Piece.lit c :: L) (good_lit f c L hg) m2.attr _ hno hrest with
      ⟨L2, h1, h2, h3⟩ | ⟨a1, m, rest2, h1, h2, h3⟩
    · cases L2 with
      | nil => simp [renderOf] at h2
      | cons p L3 =>
        cases p with
        | hit m =>
          obtain ⟨hmwf, q, w, _, hf⟩ := h3 m (List.mem_cons_self _ _)
          have hmattr := lower_mem_attrNames m.attr hmwf.1
          rw [renderOf_cons] at h2
          change _ = f m ++ renderOf f L3 at h2
          rw [hf] at h2
          cases hma : m.attr with
          | nil => exact absurd hma (attr_ne_nil m.attr hmattr)
          | cons y ys =>
            rw [hma] at h2
            simp only [List.cons_append, List.cons.injEq] at h2
            have hy := (attr_chars m.attr hmattr y
              (by rw [hma]; exact List.mem_cons_self _ _)).2
            rw [← h2.1, hwf.2.1] at hy
            exact absurd hy (by simp)
        | lit q =>
          rw [renderOf_cons] at h2
          change _ = q :: renderOf f L3 at h2
          simp only [List.cons.injEq] at h2
          have hgL3 := good_tail f _ L3 h3
          cases hu : m2.url with
          | nil => exact absurd hu hwf.2.2.2.1
          | cons x xs =>
            have hx : isQuote x = false :=
              hwf.2.2.2.2 x (by rw [hu]; exact List.mem_cons_self _ _)
            have hr3 : renderOf f L3 = x :: (xs ++ m2.closeQ :: rest) := by
              rw [← h2.2, hu]
              rfl
            obtain ⟨y, t2, hy1, hy2⟩ := source_head_nonquote f L3 hgL3 x _ hr3 hx
            have hquote : ∃ c ∈ renderOf f L3, isQuote c = true := by
              refine ⟨m2.closeQ, ?_, hwf.2.2.1⟩
              rw [hr3]
              simp
            obtain ⟨u, q3, rest3, hs1, hs2, hs3, hs4⟩ :=
              split_at_quote (sourceOf L3) y t2 hy1 hy2 (source_has_quote f L3 hgL3 hquote)
            have hcomplete := matchAt_complete ⟨m2.attr, q, u, q3⟩ rest3
              ⟨hwf.1, by rw [← h2.1]; exact hwf.2.1, hs4, hs2, hs3⟩
            rw [text_append] at hcomplete
            dsimp only at hcomplete
            rw [hsrc] at h1
            rw [h1, sourceOf_cons] at hnone
            change matchAt (m2.attr ++ '=' :: (q :: sourceOf L3)) = none at hnone
            rw [hs1, hcomplete] at hnone
            exact absurd hnone (by simp)
    · have ha1 : a1 = [] := by
        apply attr_no_proper_suffix a1 m.attr
        · rw [← h1]
          exact hattr
        · exact lower_mem_attrNames m.attr h2.1
      rw [ha1, List.nil_append, hsrc] at h3
      rw [h3, matchAt_complete m rest2 h2] at hnone
      exact absurd hnone (by simp)

theorem hexDigit_plain : ∀ d, d < 16 → hexDigit d ≠ '=' ∧ hexDigit d ≠ dquote := by decide

theorem encode_plain (s : Str) (x : Char) (hx : x ∈ encodeURIComponent s) :
    x ≠ '=' ∧ x ≠ dquote := by
  simp only [encodeURIComponent, List.mem_flatten, List.mem_map] at hx
  obtain ⟨l, ⟨c, _, rfl⟩, hxl⟩ := hx
  unfold encodeChar at hxl
  by_cases hu : isUnreserved c = true
  · simp only [hu, if_true, List.mem_singleton] at hxl
    rw [hxl]
    constructor
    · intro e
      rw [e] at hu
      exact absurd hu (by decide)
    · intro e
      rw [e] at hu
      exact absurd hu (by decide)
  · simp only [hu, if_false, Bool.false_eq_true, List.mem_flatten, List.mem_map] at hxl
    obtain ⟨l2, ⟨b, hb, rfl⟩, hx2⟩ := hxl
    have hb256 := utf8Bytes_lt _ (char_lt c) b hb
    simp only [pctByte, List.mem_cons, List.mem_singleton, List.not_mem_nil, or_false] at hx2
    rcases hx2 with h | h | h
    · rw [h]; decide
    · rw [h]; exact hexDigit_plain _ (by omega)
    · rw [h]; exact hexDigit_plain _ (by omega)

theorem matchAt_none_before_dquote (x R : Str) (hx : '=' ∉ x) :
    matchAt (x ++ dquote :: R) = none := by
  cases hm : matchAt (x ++ dquote :: R) with
  | none => rfl
  | some m =>
    exfalso
    obtain ⟨hwf, rest, hrest⟩ := matchAt_sound _ m hm
    rw [text_append] at hrest
    have hattr := lower_mem_attrNames m.attr hwf.1
    rcases List.append_eq_append_iff.mp hrest with ⟨a2, h1, h2⟩ | ⟨c2, h1, h2⟩
    · cases a2 with
      | nil =>
        simp only [List.nil_append, List.cons.injEq] at h2
        exact absurd h2.1 (by decide)
      | cons d ds =>
        simp only [List.cons_append, List.cons.injEq] at h2
        have hd : d ∈ m.attr := by rw [h1]; simp
        have := (attr_chars m.attr hattr d hd).2
        rw [← h2.1] at this
        exact absurd this (by decide)
    · cases c2 with
      | nil =>
        simp only [List.nil_append, List.cons.injEq] at h2
        exact absurd h2.1 (by decide)
      | cons d ds =>
        simp only [List.cons_append, List.cons.injEq] at h2
        apply hx
        rw [h1, ← h2.1]
        simp

theorem replaceAll_plain_tail (f : AttrMatch → Str) (e R : Str) (he : '=' ∉ e) :
    replaceAll f 0 (e ++ dquote :: R) = e ++ dquote :: replaceAll f 0 R := by
  have h := replaceAll_pre f (e ++ [dquote]) R (by
    intro i hi
    have hi2 : i ≤ e.length := by
      simp only [List.length_append, List.length_singleton] at hi
      omega
    have hd : ((e ++ [dquote]) ++ R).drop i = e.drop i ++ dquote :: R := by
      rw [List.append_assoc, List.drop_append_of_le_length hi2]
      rfl
    rw [hd]
    exact matchAt_none_before_dquote _ R (fun hmem => he (List.mem_of_mem_drop hmem)))
  simpa using h

theorem split_value (P E R : Str) (hPq : ∀ c ∈ P, isQuote c = false) (hPne : P ≠ [])
    (hE : ∀ c ∈ E, c ≠ '=' ∧ c ≠ dquote) :
    ∃ u q3 rest2, P ++ (E ++ dquote :: R) = u ++ q3 :: rest2 ∧ u ≠ [] ∧
      (∀ c ∈ u, isQuote c = false) ∧ isQuote q3 = true ∧ (∃ c2, u = P ++ c2) ∧
      (rest2 = R ∨ ∃ e3, '=' ∉ e3 ∧ rest2 = e3 ++ dquote :: R) := by
  cases hP : P with
  | nil => exact absurd hP hPne
  | cons y ys =>
    have hy : isQuote y = false := hPq y (by rw [hP]; exact List.mem_cons_self _ _)
    obtain ⟨u, q3, rest2, hs1, hs2, hs3, hs4⟩ :=
      split_at_quote (P ++ (E ++ dquote :: R)) y (ys ++ (E ++ dquote :: R))
        (by rw [hP]; rfl) hy ⟨dquote, by simp, by decide⟩
    rw [← hP]
    refine ⟨u, q3, rest2, hs1, hs2, hs3, hs4, ?_⟩
    have hc : ∃ c2, u = P ++ c2 ∧ E ++ dquote :: R = c2 ++ q3 :: rest2 := by
      rcases List.append_eq_append_iff.mp hs1.symm with ⟨a2, h1, h2⟩ | ⟨c2, h1, h2⟩
      · cases a2 with
        | nil =>
          refine ⟨[], by rw [h1]; simp, ?_⟩
          simpa using h2.symm
        | cons d ds =>
          simp only [List.cons_append, List.cons.injEq] at h2
          have : isQuote q3 = false := hPq q3 (by rw [h1, h2.1]; simp)
          rw [hs4] at this
          exact absurd this (by simp)
      · exact ⟨c2, h1, h2⟩
    obtain ⟨c2, hu, hrest⟩ := hc
    refine ⟨⟨c2, hu⟩, ?_⟩
    rcases List.append_eq_append_iff.mp hrest with ⟨a2, h1, h2⟩ | ⟨e2, h1, h2⟩
    · cases a2 with
      | nil =>
        simp only [List.nil_append, List.cons.injEq] at h2
        exact Or.inl h2.2.symm
      | cons d ds =>
        simp only [List.cons_append, List.cons.injEq] at h2
        have : isQuote dquote = false := hs3 dquote (by rw [hu, h1, ← h2.1]; simp)
        exact absurd this (by decide)
    · cases e2 with
      | nil =>
        simp only [List.nil_append, List.cons.injEq] at h2
        exact Or.inl h2.2
      | cons d ds =>
        simp only [List.cons_append, List.cons.injEq] at h2
        right
        refine ⟨ds, ?_, h2.2⟩
        intro hmem
        exact (hE '=' (by rw [h1]; simp [hmem])).1 rfl

theorem replaceAll_rewritten (env : Env) (base P attr E R : Str)
    (hPq : ∀ c ∈ P, isQuote c = false) (hPne : P ≠ [])
    (hPi : ∀ t, includes (P ++ t) "://".toList = true)
    (hattr : toLowerCase attr = "href".toList ∨ toLowerCase attr = "src".toList ∨
      toLowerCase attr = "action".toList)
    (hE : ∀ c ∈ E, c ≠ '=' ∧ c ≠ dquote) :
    replaceAll (rewriteAttr env base P) 0 ((attr ++ ['=', dquote] ++ P ++ E ++ [dquote]) ++ R) =
      (attr ++ ['=', dquote] ++ P ++ E ++ [dquote]) ++
        replaceAll (rewriteAttr env base P) 0 R := by
  obtain ⟨u, q3, rest2, hs1, hs2, hs3, hs4, ⟨c2, hu⟩, htail⟩ := split_value P E R hPq hPne hE
  have hdq : isQuote dquote = true := by decide
  have hwf : (AttrMatch.mk attr dquote u q3).WF := ⟨hattr, hdq, hs4, hs2, hs3⟩
  have hskip : rewriteAttr env base P ⟨attr, dquote, u, q3⟩ =
      (AttrMatch.mk attr dquote u q3).text := by
    apply rewriteAttr_skip
    right; left
    dsimp only
    rw [hu]
    exact hPi c2
  have hwhole : (attr ++ ['=', dquote] ++ P ++ E ++ [dquote]) ++ R =
      (AttrMatch.mk attr dquote u q3).text ++ rest2 := by
    rw [text_append]
    dsimp only
    rw [← hs1]
    simp
  rw [hwhole, replaceAll_match _ _ rest2 _ (matchAt_complete _ rest2 hwf) rfl (text_ne_nil _),
    hskip]
  rcases htail with h | ⟨e3, he3, h⟩
  · rw [h] at hwhole ⊢
    rw [List.append_cancel_right hwhole]
  · rw [h] at hwhole ⊢
    rw [replaceAll_plain_tail _ e3 R he3]
    have e : (attr ++ ['=', dquote] ++ P ++ E ++ [dquote]) =
        (AttrMatch.mk attr dquote u q3).text ++ (e3 ++ [dquote]) := by
      have hR : (attr ++ ['=', dquote] ++ P ++ E ++ [dquote]) ++ R =
          ((AttrMatch.mk attr dquote u q3).text ++ (e3 ++ [dquote])) ++ R := by
        rw [hwhole]
        simp
      exact List.append_cancel_right hR
    rw [e]
    simp

theorem rewriteAttr_shaped (env : Env) (base P : Str) (m : AttrMatch) (hwf : m.WF) :
    Shaped (rewriteAttr env base P) m := by
  rcases rewriteAttr_cases env base P m with h | ⟨_, _, _, A, _, h⟩
  · refine ⟨m.openQ, m.url ++ [m.closeQ], hwf.2.1, ?_⟩
    rw [h]
    unfold AttrMatch.text
    simp
  · refine ⟨dquote, P ++ encodeURIComponent A ++ [dquote], by decide, ?_⟩
    rw [h]
    simp

theorem scan_good (env : Env) (base P s : Str) (k : Nat) :
    Good (rewriteAttr env base P) (scan k s) :=
  fun m hm => ⟨scan_hits s k m hm, rewriteAttr_shaped env base P m (scan_hits s k m hm)⟩

theorem replaceAll_hit (env : Env) (base P R : Str) (m : AttrMatch) (hwf : m.WF)
    (hPq : ∀ c ∈ P, isQuote c = false) (hPne : P ≠ [])
    (hPi : ∀ t, includes (P ++ t) "://".toList = true) :
    replaceAll (rewriteAttr env base P) 0 (rewriteAttr env base P m ++ R) =
      rewriteAttr env base P m ++ replaceAll (rewriteAttr env base P) 0 R := by
  rcases rewriteAttr_cases env base P m with h | ⟨_, _, _, A, _, h⟩
  · rw [h, replaceAll_match _ _ R m (matchAt_complete m R hwf) rfl (text_ne_nil m), h]
  · rw [h]
    exact replaceAll_rewritten env base P m.attr (encodeURIComponent A) R hPq hPne hPi hwf.1
      (encode_plain A)

theorem render_fixed (env : Env) (base P : Str)
    (hPq : ∀ c ∈ P, isQuote c = false) (hPne : P ≠ [])
    (hPi : ∀ t, includes (P ++ t) "://".toList = true) (s : Str) :
    ∀ k, replaceAll (rewriteAttr env base P) 0 (renderOf (rewriteAttr env base P) (scan k s)) =
      renderOf (rewriteAttr env base P) (scan k s) := by
  induction s with
  | nil =>
    intro k
    cases k <;> rfl
  | cons c cs ih =>
    intro k
    cases k with
    | succ k =>
      rw [scan]
      exact ih k
    | zero =>
      rw [scan]
      cases hm : matchAt (c :: cs) with
      | some m =>
        dsimp only
        rw [renderOf_cons]
        change replaceAll _ 0 (rewriteAttr env base P m ++ _) = rewriteAttr env base P m ++ _
        rw [replaceAll_hit env base P _ m (matchAt_sound _ m hm).1 hPq hPne hPi, ih]
      | none =>
        dsimp only
        rw [renderOf_cons]
        change replaceAll _ 0 (c :: renderOf (rewriteAttr env base P) (scan 0 cs)) =
          c :: renderOf (rewriteAttr env base P) (scan 0 cs)
        have hsrc : sourceOf (scan 0 cs) = cs := by
          rw [scan_source, List.drop_zero]
        have hnone := matchAt_render_none (rewriteAttr env base P) c (scan 0 cs)
          (scan_good env base P cs 0) (by rw [hsrc]; exact hm)
        rw [replaceAll, hnone]
        dsimp only
        rw [ih 0]

theorem proxyStart_plain (protocol host key : Str)
    (hp : protocol = "http:".toList ∨ protocol = "https:".toList)
    (hhost : ∀ c ∈ host, isQuote c = false) (hkey : ∀ c ∈ key, isQuote c = false) :
    (∀ c ∈ protocol ++ "//".toList ++ host ++ "/".toList ++ key ++ "/".toList,
      isQuote c = false) ∧
    protocol ++ "//".toList ++ host ++ "/".toList ++ key ++ "/".toList ≠ [] ∧
    (∀ t, includes (protocol ++ "//".toList ++ host ++ "/".toList ++ key ++ "/".toList ++ t)
      "://".toList = true) := by
  have hproto : ∀ c ∈ protocol, isQuote c = false := by
    rcases hp with rfl | rfl <;> decide
  have hne : protocol ≠ [] := by
    rcases hp with rfl | rfl <;> decide
  refine ⟨?_, ?_, ?_⟩
  · intro c hc
    simp only [List.mem_append] at hc
    rcases hc with ((((hc | hc) | hc) | hc) | hc) | hc
    · exact hproto c hc
    · revert c; decide
    · exact hhost c hc
    · revert c; decide
    · exact hkey c hc
    · revert c; decide
  · intro e
    simp only [List.append_eq_nil] at e
    exact hne e.1.1.1.1.1
  · intro t
    rcases hp with rfl | rfl
    · have e : "http:".toList ++ "//".toList ++ host ++ "/".toList ++ key ++ "/".toList ++ t =
          "http".toList ++ "://".toList ++ (host ++ "/".toList ++ key ++ "/".toList ++ t) := by
        simp
      rw [e]
      exact includes_mid _ _ _
    · have e : "https:".toList ++ "//".toList ++ host ++ "/".toList ++ key ++ "/".toList ++ t =
          "https".toList ++ "://".toList ++ (host ++ "/".toList ++ key ++ "/".toList ++ t) := by
        simp
      rw [e]
      exact includes_mid _ _ _

/-- C18: for the protocol `http:` or `https:`, a host and a key without quote
characters, and every body, target and platform, when `replaceRelativePaths`
returns an output, applying it to that output in the same context returns the
output unchanged. -/
theorem rewriter_idempotent (env : Env) (text protocol host target key out : Str)
    (hp : protocol = "http:".toList ∨ protocol = "https:".toList)
    (hhost : ∀ c ∈ host, isQuote c = false) (hkey : ∀ c ∈ key, isQuote c = false)
    (h : replaceRelativePaths env text protocol host target key = some out) :
    replaceRelativePaths env out protocol host target key = some out := by
  obtain ⟨hPq, hPne, hPi⟩ := proxyStart_plain protocol host key hp hhost hkey
  unfold replaceRelativePaths at h ⊢
  cases hb : env.parseURL target none with
  | none =>
    rw [hb] at h
    simp at h
  | some base =>
    rw [hb] at h
    dsimp only at h ⊢
    simp only [Option.some.injEq] at h
    rw [replaceAll_eq_render] at h
    rw [← h, render_fixed env base _ hPq hPne hPi text 0]

theorem rewriter_idempotent_witness :
    replaceRelativePaths (sampleEnv samplePage)
      ("<a href=".toList ++ [dquote] ++
        "https://proxy.example/abc123/https%3A%2F%2Fexample.com%2Fabout".toList ++ [dquote] ++
        ">".toList)
      "https:".toList "proxy.example".toList "https://example.com/index".toList
      "abc123".toList =
      some ("<a href=".toList ++ [dquote] ++
        "https://proxy.example/abc123/https%3A%2F%2Fexample.com%2Fabout".toList ++ [dquote] ++
        ">".toList) :=
  rewriter_idempotent (sampleEnv samplePage)
    ("<a href=".toList ++ [dquote] ++ "/about".toList ++ [dquote] ++ ">".toList)
    "https:".toList "proxy.example".toList "https://example.com/index".toList "abc123".toList
    ("<a href=".toList ++ [dquote] ++
      "https://proxy.example/abc123/https%3A%2F%2Fexample.com%2Fabout".toList ++ [dquote] ++
      ">".toList)
    (Or.inr rfl) (by decide) (by decide) (by decide)

/-! ## The header filter -/

theorem foldl_set_get (keep : Str → Bool) (l : List (Str × Str)) (acc : Headers) (name : Str) :
    (l.foldl (fun newHeaders p => if keep p.1 then newHeaders.set p.1 p.2 else newHeaders)
      acc).get name =
      (((l.filter (fun p => keep p.1 && sameName p.1 name)).getLast?).map Prod.snd).or
        (acc.get name) := by
  induction l generalizing acc with
  | nil => rfl
  | cons p l ih =>
    rw [List.foldl_cons, ih, List.filter_cons]
    by_cases hk : keep p.1 = true
    · by_cases hs : sameName p.1 name = true
      · rw [if_pos hk, if_pos (by rw [hk, hs]; rfl), get_set_same _ _ _ _ hs]
        cases hfl : l.filter (fun p => keep p.1 && sameName p.1 name) with
        | nil => rfl
        | cons q qs =>
          rw [List.getLast?_cons_cons]
          cases hq : (q :: qs).getLast? with
          | none => simp at hq
          | some r => rfl
      · have hs2 : sameName p.1 name = false := by simpa using hs
        rw [if_pos hk, if_neg (by rw [hk, hs2]; decide), get_set_other _ _ _ _ hs2]
    · have hk2 : keep p.1 = false := by simpa using hk
      rw [if_neg hk, if_neg (by rw [hk2, Bool.false_and]; exact Bool.false_ne_true)]

theorem entries_filter_forwarded (h : Headers) (name : Str) :
    h.entries.filter
      (fun p => (!startsWith p.1 "cf-".toList && !startsWith p.1 "x-forwarded-".toList &&
        toLowerCase p.1 != "host".toList) && sameName p.1 name) =
      if isForwarded name then h.entries.filter (fun p => sameName p.1 name) else [] := by
  have hkeep : ∀ p ∈ h.entries, sameName p.1 name = true →
      (!startsWith p.1 "cf-".toList && !startsWith p.1 "x-forwarded-".toList &&
        toLowerCase p.1 != "host".toList) = isForwarded name := by
    intro p hp hs
    have hl := entries_lower h p hp
    have e : p.1 = toLowerCase name := by
      rw [← sameName_lower, sameName_of_lower hl (toLowerCase_idem name)] at hs
      simpa using hs
    rw [isForwarded_of_lower _ hl, e, isForwarded_lower]
  by_cases hk : isForwarded name = true
  · rw [if_pos hk]
    apply List.filter_congr
    intro p hp
    by_cases hs : sameName p.1 name = true
    · rw [hkeep p hp hs, hk, hs]
      rfl
    · have hs2 : sameName p.1 name = false := by simpa using hs
      rw [hs2, Bool.and_false]
  · have hk2 : isForwarded name = false := by simpa using hk
    rw [if_neg hk, List.filter_eq_nil_iff]
    intro p hp
    by_cases hs : sameName p.1 name = true
    · rw [hkeep p hp hs, hk2, Bool.false_and]
      exact Bool.false_ne_true
    · have hs2 : sameName p.1 name = false := by simpa using hs
      rw [hs2, Bool.and_false]
      decide

/-- What `get` finds in the filtered collection: nothing under a name that
fails one of the three tests, the last inbound value under `Set-Cookie`, and
the inbound value under every other name. -/
theorem filterHeaders_get (h : Headers) (name : Str) :
    (filterHeaders h).get name =
      if isForwarded name then
        if toLowerCase name = "set-cookie".toList then (h.values name).getLast?
        else h.get name
      else none := by
  unfold filterHeaders
  rw [foldl_set_get
    (fun n => !startsWith n "cf-".toList && !startsWith n "x-forwarded-".toList &&
      toLowerCase n != "host".toList) h.entries ⟨[]⟩ name]
  have hacc : (Headers.mk []).get name = none := rfl
  rw [hacc, Option.or_none, entries_filter_forwarded]
  by_cases hk : isForwarded name = true
  · rw [if_pos hk, if_pos hk, entries_filter]
    by_cases hin : toLowerCase name ∈ h.names
    · rw [if_pos hin]
      unfold Headers.entriesOf
      by_cases hc : toLowerCase name = "set-cookie".toList
      · rw [if_pos hc, if_pos hc, List.getLast?_map, Option.map_map, values_lower]
        cases (h.values name).getLast? <;> rfl
      · rw [if_neg hc, if_neg hc, get_lower]
        obtain ⟨p, hp, hpn⟩ := (mem_names h _).mp hin
        have hsome : h.get name ≠ none := by
          rw [ne_eq, get_none_iff]
          intro hall
          have := hall p hp
          simp [sameName, hpn] at this
        obtain ⟨v, hv⟩ := Option.ne_none_iff_exists'.mp hsome
        rw [hv]
        rfl
    · rw [if_neg hin]
      have hnone : h.get name = none := by
        rw [get_none_iff]
        intro p hp
        by_contra hs
        apply hin
        rw [mem_names]
        refine ⟨p, hp, ?_⟩
        simpa [sameName] using hs
      have hvals : h.values name = [] := by
        unfold Headers.values
        rw [List.map_eq_nil_iff, List.filter_eq_nil_iff]
        intro p hp
        have := (get_none_iff h name).mp hnone p hp
        simp [this]
      rw [hnone, hvals]
      simp
  · rw [if_neg hk, if_neg hk]
    rfl

/-- The headers of the request handed to `fetch` are the filtered inbound
headers. -/
theorem run_fetched_headers (env : Env) (key : Str) (request : Request) (m : OutRequest)
    (hf : (handleRequestRun env key request).fetched = some m) :
    m.headers = filterHeaders request.headers := by
  revert hf
  unfold handleRequestRun
  dsimp only
  split_ifs with h1 h2 h3
  · intro hf; simp at hf
  · intro hf; simp at hf
  · intro hf; simp at hf
  · cases decodeURIComponent (join "/".toList (List.drop 1 (pathSegments request.url.pathname))) with
    | none => intro hf; simp at hf
    | some decoded =>
      dsimp only
      cases env.requestURL (ensureProtocol decoded request.url.protocol ++ request.url.search) with
      | none => intro hf; simp at hf
      | some href =>
        dsimp only
        cases env.fetch ⟨href, filterHeaders request.headers, request.method, request.body,
            "manual".toList⟩ with
        | none =>
          intro hf
          simp only [Option.some.injEq] at hf
          rw [← hf]
        | some up =>
          dsimp only
          split_ifs with hr
          · intro hf
            simp only [Option.some.injEq] at hf
            rw [← hf]
          · cases assemble env request.url
                (ensureProtocol decoded request.url.protocol ++ request.url.search)
                ((pathSegments request.url.pathname).headD []) up with
            | none =>
              intro hf
              simp only [Option.some.injEq] at hf
              rw [← hf]
            | some r =>
              intro hf
              simp only [Option.some.injEq] at hf
              rw [← hf]

/-- C6 fails on the code: `Set-Cookie` passes the three tests, the inbound
collection has the two values `a=1` and `b=2` for it, and the filtered
collection, which is the one handed to `fetch`, has the single `Set-Cookie`
header `b=2`; the `Accept` header is kept with its value. The copy that
`handleRedirect` makes of a collection, `new Headers(headers)`, keeps both
values. -/
theorem filter_keeps_last_set_cookie :
    isForwarded "Set-Cookie".toList = true ∧
    twoCookies.values "Set-Cookie".toList = ["a=1".toList, "b=2".toList] ∧
    twoCookies.get "Set-Cookie".toList = some "a=1, b=2".toList ∧
    (filterHeaders twoCookies).values "Set-Cookie".toList = ["b=2".toList] ∧
    (filterHeaders twoCookies).get "Set-Cookie".toList = some "b=2".toList ∧
    (filterHeaders twoCookies).list =
      [("accept".toList, "text/html".toList), ("set-cookie".toList, "b=2".toList)] ∧
    twoCookies.copy.values "Set-Cookie".toList = ["a=1".toList, "b=2".toList] ∧
    ((handleRequestRun (sampleEnv samplePage) "abc123".toList
      (getRequestWith "/abc123/https%3A%2F%2Fexample.com%2Findex".toList twoCookies)).fetched.map
        (fun m => m.headers)) = some (filterHeaders twoCookies) := by
  decide

end KeyVaultProxy
